import Mathlib

/-!
Verification development for the `mywayback` CDX URL-harvesting tool.

The tool (Go, `main.go` plus two unnamed helper files) fetches the list of
archived URLs for a site pattern from the web.archive.org CDX index, page by
page with retries, filters and transforms each URL line in a worker pool,
deduplicates the results in a single printer goroutine and writes them to
stdout (and optionally to a file via an `io.MultiWriter`).

This file is a shallow embedding of the parts of that program that the
verified properties speak about:

* the string primitives from Go's `strings` package that the code uses
  (`TrimSpace`, `TrimPrefix`, `Split`, `FieldsFunc`, `Contains`, ...),
  modelled over `List Char`;
* the deduplicating printer goroutine (`main.go` 249-269);
* one page-fetcher worker body, including its 3-attempt retry loop with
  linear backoff (`main.go` 131-173);
* the completed-page counter that every page task increments exactly once;
* `normalizeURL` (`main.go` 293-301);
* `CompileExtRegex` (unnamed helper file) together with `regexp.QuoteMeta`
  and a syntactic validity checker standing for `regexp.Compile` succeeding;
* the relevant behaviour of Go's `net/url` (`Parse`, `URL.String`,
  `QueryUnescape`) for the URL shapes the pipeline handles;
* the record-processing worker body (`main.go` 183-242);
* the orchestrator's page-count handling and early exit (`main.go` 50-104).

Machine integers do not overflow on any quantity here (page counts, retry
counters), so `Nat`/`Int` are used directly.
-/

/-! ### Models of the Go `strings` primitives used by the program -/

/-- Model of Go `unicode.IsSpace` restricted to the ASCII whitespace
characters (the only ones relevant to CDX output and CLI input). -/
def isSpaceChar (c : Char) : Bool :=
  c == ' ' || c == '\t' || c == '\n' || c == '\r' || c == '\x0b' || c == '\x0c'

/-- Model of Go `strings.TrimSpace` on a character list. -/
def trimChars (s : List Char) : List Char :=
  ((s.dropWhile isSpaceChar).reverse.dropWhile isSpaceChar).reverse

/-- Model of Go `strings.TrimSpace`. -/
def trimS (s : String) : String := ⟨trimChars s.data⟩

/-- Model of Go `strings.HasPrefix`. -/
def strStartsWith (s p : String) : Bool := p.data.isPrefixOf s.data

/-- Model of Go `strings.HasSuffix`. -/
def strEndsWith (s p : String) : Bool := p.data.isSuffixOf s.data

/-- Model of Go `strings.TrimPrefix`: drop `p` from the front of `s` when it
is a prefix, otherwise return `s` unchanged. -/
def trimPrefixS (s p : String) : String :=
  if strStartsWith s p then ⟨s.data.drop p.data.length⟩ else s

/-- Model of Go `unicode.ToLower` restricted to ASCII letters (the extension
tokens and the `(?i)` regex flag only deal with ASCII in this program). -/
def lowerChar (c : Char) : Char :=
  if 'A' ≤ c ∧ c ≤ 'Z' then Char.ofNat (c.toNat + 32) else c

/-- Model of Go `strings.ToLower` (ASCII). -/
def lowerStr (s : String) : String := ⟨s.data.map lowerChar⟩

/-- Splitting on a separator character, keeping empty fields:
model of Go `strings.Split(s, sep)` for a one-character separator. -/
def splitCharAux (sep : Char) (acc : List Char) : List Char → List (List Char)
  | [] => [acc.reverse]
  | c :: rest =>
    if c == sep then acc.reverse :: splitCharAux sep [] rest
    else splitCharAux sep (c :: acc) rest

/-- Model of Go `strings.Split(csv, ",")`. -/
def splitComma (s : String) : List String :=
  (splitCharAux ',' [] s.data).map (fun l => ⟨l⟩)

/-- Splitting on a predicate, dropping empty fields:
model of Go `strings.FieldsFunc`. -/
def fieldsFuncAux (p : Char → Bool) (acc : List Char) : List Char → List (List Char)
  | [] => [acc.reverse]
  | c :: rest =>
    if p c then acc.reverse :: fieldsFuncAux p [] rest
    else fieldsFuncAux p (c :: acc) rest

/-- Model of Go `strings.FieldsFunc s p` (only the non-empty substrings
between separator characters are returned). -/
def fieldsFunc (s : List Char) (p : Char → Bool) : List (List Char) :=
  (fieldsFuncAux p [] s).filter (fun l => !(l == []))

/-! ### The deduplicating sink (printer goroutine, `main.go` 249-269)

The printer drains the results channel with a `seen` map; a result already
in the map is skipped, otherwise it is recorded and written through the
buffered writer that wraps the configured `io.Writer` (stdout alone, or an
`io.MultiWriter` duplicating every byte to stdout and the output file).
The channel delivers results in some arrival order: the model takes that
order as a list. -/

/-- One iteration of the printer loop: `seen` lookup, insert, write. -/
def sinkStep : List String × List String → String → List String × List String
  | (seen, out), r => if r ∈ seen then (seen, out) else (r :: seen, out ++ [r])

/-- The lines the printer writes, given the arrival order `rs` of results. -/
def sinkRun (rs : List String) : List String := (rs.foldl sinkStep ([], [])).2

/-- Recursive description of the emitted lines starting from a given seen
set (used to reason about `sinkRun`). -/
def sinkEmit (seen : List String) : List String → List String
  | [] => []
  | r :: rs => if r ∈ seen then sinkEmit seen rs else r :: sinkEmit (r :: seen) rs

/-- Recursive description of the final seen set. -/
def sinkSeen (seen : List String) : List String → List String
  | [] => seen
  | r :: rs => if r ∈ seen then sinkSeen seen rs else sinkSeen (r :: seen) rs

/-- Model of `fmt.Fprintln(bufw, r)` through an `io.MultiWriter`: the same
line is appended to every destination buffer. -/
def multiWrite (dests : List (List String)) (r : String) : List (List String) :=
  dests.map (fun d => d ++ [r])

/-- Printer loop writing through a `MultiWriter` with `k` destinations. -/
def sinkStepDests : List String × List (List String) → String → List String × List (List String)
  | (seen, dests), r => if r ∈ seen then (seen, dests) else (r :: seen, multiWrite dests r)

/-- The per-destination outputs of the printer with `k` configured
destinations (k = 1: stdout alone; k = 2: stdout and the output file). -/
def sinkRunDests (k : Nat) (rs : List String) : List (List String) :=
  (rs.foldl sinkStepDests ([], List.replicate k [])).2

/-! ### The page fetcher and its retry loop (`main.go` 126-173)

An attempt is `client.Get(pageURL)`: either a transport error (in which case
Go's `http.Client.Get` returns a nil response) or a response with a status
code and a body. The loop makes up to `maxRetries = 3` attempts, breaking on
the first 2xx response; every failed attempt closes the body (if any), logs
a yellow retry warning and sleeps `attempt` seconds. After the loop, the
code takes the red error branch only when `ierr != nil || respP == nil`;
otherwise it scans the body. Scanning the body of a response that was
closed inside the loop (the final attempt returned a non-2xx status) yields
no lines and a scanner error, which is logged as a yellow warning. Both
paths increment `pagesCompleted` exactly once. -/

structure Response where
  status : Nat
  bodyLines : List String
deriving DecidableEq, Repr

/-- The reporter messages the fetcher can produce for one page, by level:
`retryWarn` and `readWarn` are yellow warnings, `fetchError` is the red
error-level message. -/
inductive LogEvent where
  | retryWarn (attempt : Nat)
  | fetchError
  | readWarn
deriving DecidableEq, Repr

structure LoopState where
  respP : Option Response
  ierr : Bool
  closed : Bool
  broke : Bool
  sleeps : List Nat
  logs : List LogEvent
  attemptsMade : Nat
deriving DecidableEq, Repr

def initLoopState : LoopState := ⟨none, false, false, false, [], [], 0⟩

def is2xx (r : Response) : Bool := 200 ≤ r.status && r.status < 300

/-- One iteration of the retry loop (`main.go` 135-149). A `broke` state is
left unchanged (the Go loop has already exited via `break`). -/
def attemptStep (get : Nat → Except Unit Response) (st : LoopState) (attempt : Nat) : LoopState :=
  if st.broke then st
  else
    match get attempt with
    | .ok r =>
      if is2xx r then
        { st with respP := some r, ierr := false, closed := false, broke := true,
                  attemptsMade := st.attemptsMade + 1 }
      else
        { st with respP := some r, ierr := false, closed := true, broke := false,
                  logs := st.logs ++ [LogEvent.retryWarn attempt],
                  sleeps := st.sleeps ++ [attempt],
                  attemptsMade := st.attemptsMade + 1 }
    | .error _ =>
      { st with respP := none, ierr := true, closed := false, broke := false,
                logs := st.logs ++ [LogEvent.retryWarn attempt],
                sleeps := st.sleeps ++ [attempt],
                attemptsMade := st.attemptsMade + 1 }

def maxRetries : Nat := 3

/-- The whole retry loop: `for attempt := 1; attempt <= maxRetries; attempt++`. -/
def runRetryLoop (get : Nat → Except Unit Response) : LoopState :=
  (List.range' 1 maxRetries).foldl (attemptStep get) initLoopState

/-- The observable outcome of one page task. -/
structure FetchRes where
  attemptsMade : Nat
  sleeps : List Nat
  logs : List LogEvent
  lines : List String
  delta : Nat
  errBranch : Bool
  succeeded : Bool
deriving DecidableEq, Repr

/-- Body of the page-fetcher worker for one page task (`main.go` 131-173):
retry loop, then either the error branch (red log, counter increment) or
the body scan (trimmed non-empty lines pushed to the jobs channel; a body
closed during the loop reads as empty with a scanner error, logged as a
yellow warning), then the counter increment. -/
def fetchPage (get : Nat → Except Unit Response) : FetchRes :=
  let st := runRetryLoop get
  if st.ierr || st.respP.isNone then
    ⟨st.attemptsMade, st.sleeps, st.logs ++ [LogEvent.fetchError], [], 1, true, st.broke⟩
  else
    match st.respP with
    | some r =>
      if st.closed then
        ⟨st.attemptsMade, st.sleeps, st.logs ++ [LogEvent.readWarn], [], 1, false, st.broke⟩
      else
        ⟨st.attemptsMade, st.sleeps, st.logs,
          (r.bodyLines.map trimS).filter (fun l => !(l == "")), 1, false, st.broke⟩
    | none =>
      ⟨st.attemptsMade, st.sleeps, st.logs ++ [LogEvent.fetchError], [], 1, true, st.broke⟩

/-- The successive values of the `pagesCompleted` counter over a run: each
page task is taken from the page-jobs channel by exactly one fetcher worker
and contributes exactly one atomic increment; `tasks` lists the attempt
behaviour of each of the `totalPages` page tasks. -/
def counterTrace (tasks : List (Nat → Except Unit Response)) : List Nat :=
  tasks.scanl (fun c t => c + (fetchPage t).delta) 0

/-! ### Pattern normalization (`main.go` 293-301) -/

/-- The prefix-stripping part of `normalizeURL`: `TrimSpace`, then
`TrimPrefix(u, "http://")`, then `TrimPrefix(u, "https://")`. -/
def stripScheme (u : String) : String :=
  trimPrefixS (trimPrefixS (trimS u) "http://") "https://"

/-- Model of `normalizeURL` (`main.go` 293-301): after stripping, append
`"*"` unless the string already contains a `*` anywhere. -/
def normalizeURL (u : String) : String :=
  let u3 := stripScheme u
  if !(u3.data.contains '*') then u3 ++ "*" else u3

/-! ### Extension-filter compilation (`CompileExtRegex`, unnamed helper file)

`CompileExtRegex` chooses the include CSV when it is non-blank (include
mode), otherwise the exclude CSV; splits on commas; trims each token, skips
empty tokens, strips one leading dot; `regexp.QuoteMeta`s each token; and
compiles `(?i)\.(tok1|tok2|...)$`. The compiled matcher is represented by
the token list; `scanRe` below is a syntactic validity checker covering
the syntax half of `regexp.Compile`, for exactly the constructs that can
appear in these patterns (a `(?i)` flag group, one group, `|` alternation,
`$`, `^`, escaped metacharacters, literal characters), rejecting
everything that would need further analysis. `regexp.Compile` has a
second, non-syntactic failure mode: it rejects a pattern whose bytes are
not valid UTF-8 with `ErrInvalidUTF8`. Over decoded text (`String` /
`List Char`) that mode cannot arise, so over this section's domain syntax
is the only way compilation can fail; the byte-level model further below
(`utf8Valid`, `compileExtRegexB`) is the authoritative model of
`regexp.Compile` succeeding on arbitrary flag bytes. -/

/-- The metacharacters escaped by Go `regexp.QuoteMeta`:
the set `\ . + * ? ( ) | [ ] { } ^ $`. -/
def regexSpecials : List Char :=
  ['\\', '.', '+', '*', '?', '(', ')', '|', '[', ']', '\x7b', '\x7d', '^', '$']

/-- Model of Go `regexp.QuoteMeta` on a character list. -/
def quoteMeta : List Char → List Char
  | [] => []
  | c :: rest =>
    if c ∈ regexSpecials then '\\' :: c :: quoteMeta rest else c :: quoteMeta rest

/-- Unescaped characters our checker refuses to analyse (repetition
operators and character classes never occur unescaped in the generated
patterns). -/
def reBad : List Char := ['*', '+', '?', '[', ']', '\x7b', '\x7d']

/-- Syntactic regex validity scanner (the syntax half of `regexp.Compile`,
for the restricted syntax described above; the UTF-8-validity half, which
cannot fail over decoded text, is modelled on bytes by `utf8Valid` below).
`d` is the open parenthesis depth; acceptance requires the pattern to end
at depth 0. -/
def scanRe : List Char → Nat → Bool
  | [], d => d == 0
  | ['\\'], _ => false
  | '\\' :: c2 :: rest2, d => if c2 ∈ regexSpecials then scanRe rest2 d else false
  | '(' :: '?' :: 'i' :: ')' :: rest2, d => scanRe rest2 d
  | '(' :: rest, d => scanRe rest (d + 1)
  | ')' :: rest, d =>
    match d with
    | 0 => false
    | d' + 1 => scanRe rest d'
  | c :: rest, d => if c ∈ reBad then false else scanRe rest d

/-- Whole-pattern validity. -/
def regexpOk (p : List Char) : Bool := scanRe p 0

/-- Model of `strings.Join(parts, "|")` on character lists. -/
def extAlternation : List (List Char) → List Char
  | [] => []
  | [p] => p
  | p :: ps => p ++ '|' :: extAlternation ps

/-- The pattern string `(?i)\.(` + Join(parts, "|") + `)$` built by
`CompileExtRegex`, where `parts` are the already-QuoteMeta'd tokens. -/
def extPatternChars (parts : List (List Char)) : List Char :=
  ['(', '?', 'i', ')', '\\', '.', '('] ++ extAlternation parts ++ [')', '$']

/-- The token list `CompileExtRegex` derives from its chosen CSV: split on
commas, trim, skip empties, strip one leading dot. -/
def extTokens (csv : String) : List String :=
  (((splitComma csv).map trimS).filter (fun p => !(p == ""))).map
    (fun p => trimPrefixS p ".")

/-- Result of `CompileExtRegex`: the compiled matcher (represented by its
token list; `none` stands for a nil `*regexp.Regexp`), the include-mode
flag, and whether compilation failed. -/
structure ExtCompileRes where
  toks : Option (List String)
  includeMode : Bool
  compileErr : Bool
deriving DecidableEq, Repr

/-- Model of `CompileExtRegex` (unnamed helper file, lines 10-32) over
decoded text; `compileExtRegexB` below is its byte-exact counterpart, on
which the `ErrInvalidUTF8` failure path of `regexp.Compile` is
representable. -/
def compileExtRegex (includeCSV excludeCSV : String) : ExtCompileRes :=
  let includeMode := !(trimS includeCSV == "")
  let csv := if includeMode then includeCSV else excludeCSV
  let toks := extTokens csv
  if toks = [] then ⟨none, includeMode, false⟩
  else if regexpOk (extPatternChars (toks.map (fun t => quoteMeta t.data))) then
    ⟨some toks, includeMode, false⟩
  else ⟨none, includeMode, true⟩

/-- Match semantics of the compiled regex `(?i)\.(tok1|...|tokn)$` against a
path: since every alternative is a QuoteMeta'd literal, the regex matches
exactly when the path ends, case-insensitively, in a dot followed by one of
the tokens. -/
def extMatch (toks : List String) (path : String) : Bool :=
  toks.any (fun e => strEndsWith (lowerStr path) ("." ++ lowerStr e))

/-! ### Model of the Go `net/url` behaviour the program relies on

Translated from Go's `net/url` (`Parse`, `parse` with `viaRequest = false`,
`getScheme`, `URL.String`, `QueryUnescape`), restricted as follows: decoded
and re-encoded components round-trip to the original text for the URL
shapes the pipeline handles, so `host`, `rawPath` and `fragment` store the
original (validated) text and `URL.String` prints them verbatim; userinfo
is stored unvalidated; the `OmitHost` special case of `scheme:///` URLs is
not modelled. `path` stores the percent-decoded path, which is what the
worker's extension filter looks at. -/

/-- Model of `net/url`'s control-byte check (`b < ' ' || b == 0x7f`). -/
def containsCtl (s : List Char) : Bool :=
  s.any (fun c => c.toNat < 32 || c.toNat == 127)

def isSchemeAlpha (c : Char) : Bool :=
  ('a' ≤ c && c ≤ 'z') || ('A' ≤ c && c ≤ 'Z')

def isDigitChar (c : Char) : Bool := '0' ≤ c && c ≤ '9'

/-- Model of `net/url.getScheme`: `.error` is the
"missing protocol scheme" error (a `:` at position 0); `.ok ([], orig)`
means no scheme was found and the input is left whole. -/
def getSchemeAux (orig : List Char) : List Char → List Char → Except Unit (List Char × List Char)
  | _, [] => .ok ([], orig)
  | acc, c :: rest =>
    if isSchemeAlpha c then getSchemeAux orig (c :: acc) rest
    else if isDigitChar c || c == '+' || c == '-' || c == '.' then
      if acc = [] then .ok ([], orig) else getSchemeAux orig (c :: acc) rest
    else if c == ':' then
      if acc = [] then .error () else .ok (acc.reverse, rest)
    else .ok ([], orig)

def getScheme (s : List Char) : Except Unit (List Char × List Char) :=
  getSchemeAux s [] s

/-- Model of `net/url`'s `split(s, sep, true)`: cut at the first occurrence
of `sep`, dropping the separator; `(s, [])` when `sep` is absent. -/
def splitCut (s : List Char) (sep : Char) : List Char × List Char :=
  let pre := s.takeWhile (fun c => !(c == sep))
  match s.dropWhile (fun c => !(c == sep)) with
  | [] => (s, [])
  | _ :: t => (pre, t)

/-- Model of `net/url`'s `split(s, sep, false)`: cut at the first occurrence
of `sep`, keeping the separator on the right part. -/
def splitKeep (s : List Char) (sep : Char) : List Char × List Char :=
  (s.takeWhile (fun c => !(c == sep)), s.dropWhile (fun c => !(c == sep)))

def isHexChar (c : Char) : Bool :=
  isDigitChar c || ('a' ≤ c && c ≤ 'f') || ('A' ≤ c && c ≤ 'F')

def hexVal (c : Char) : Nat :=
  if isDigitChar c then c.toNat - 48
  else if 'a' ≤ c ∧ c ≤ 'f' then c.toNat - 87
  else c.toNat - 55

/-- Model of `net/url.unescape` without `+` translation (modes
`encodePath`/`encodeHost`/`encodeFragment`): a `%` not followed by two hex
digits is an escape error. Decoded bytes are modelled as characters. -/
def unescapePct : List Char → Option (List Char)
  | [] => some []
  | '%' :: a :: b :: rest =>
    if isHexChar a && isHexChar b then
      (unescapePct rest).map (fun r => Char.ofNat (hexVal a * 16 + hexVal b) :: r)
    else none
  | '%' :: _ => none
  | c :: rest => (unescapePct rest).map (fun r => c :: r)

/-- Model of `net/url.QueryUnescape` (`unescape` with
`encodeQueryComponent`): like `unescapePct` but `+` decodes to a space. -/
def unescapeQuery : List Char → Option (List Char)
  | [] => some []
  | '%' :: a :: b :: rest =>
    if isHexChar a && isHexChar b then
      (unescapeQuery rest).map (fun r => Char.ofNat (hexVal a * 16 + hexVal b) :: r)
    else none
  | '%' :: _ => none
  | '+' :: rest => (unescapeQuery rest).map (fun r => ' ' :: r)
  | c :: rest => (unescapeQuery rest).map (fun r => c :: r)

/-- Model of `net/url.URL`. `opq` stands for the `Opaque` field; `path` is
the decoded `Path`, `rawPath` the original escaped path text (standing for
`EscapedPath()`), `fragment` the original escaped fragment text. -/
structure GoURL where
  scheme : String
  opq : String
  user : Option String
  host : String
  path : String
  rawPath : String
  forceQuery : Bool
  rawQuery : String
  fragment : String
deriving DecidableEq, Repr

/-- Model of `net/url.validOptionalPort`. -/
def validOptionalPort (p : List Char) : Bool :=
  match p with
  | [] => true
  | ':' :: digits => digits.all isDigitChar
  | _ => false

/-- Split a host at its last colon, returning `(before, colonPort)` where
`colonPort` includes the colon when present (Go `strings.LastIndex` use in
`parseHost`). -/
def splitLastColon (host : List Char) : List Char × List Char :=
  let rev := host.reverse
  let pre := rev.takeWhile (fun c => !(c == ':'))
  match rev.dropWhile (fun c => !(c == ':')) with
  | [] => (host, [])
  | _ :: t => (t.reverse, ':' :: pre.reverse)

/-- Split an authority at its last `@`, returning `(userinfo?, host)`
(Go `strings.LastIndex(authority, "@")` in `parseAuthority`). -/
def splitLastAt (authority : List Char) : Option (List Char) × List Char :=
  let rev := authority.reverse
  let hostRev := rev.takeWhile (fun c => !(c == '@'))
  match rev.dropWhile (fun c => !(c == '@')) with
  | [] => (none, authority)
  | _ :: t => (some t.reverse, hostRev.reverse)

/-- Model of `net/url.parseHost`: bracketed IPv6 hosts need a closing `]`
and a valid optional port after it; otherwise anything after the last colon
must be a valid optional port; percent escapes must be well-formed. The
validated host is kept as its original text (see the section comment). -/
def parseHost (host : List Char) : Option (List Char) :=
  match host with
  | '[' :: rest =>
    let (inner, after) := splitKeep rest.reverse ']'
    let _ := inner
    match after with
    | [] => none
    | _ :: beforeRev =>
      let _ := beforeRev
      let colonPort := (rest.reverse.takeWhile (fun c => !(c == ']'))).reverse
      if validOptionalPort colonPort then some host else none
  | _ =>
    let (_, colonPort) := splitLastColon host
    if validOptionalPort colonPort then
      match unescapePct host with
      | some _ => some host
      | none => none
    else none

/-- Model of `net/url.parseAuthority` (userinfo kept unvalidated). -/
def parseAuthority (authority : List Char) : Option (Option String × List Char) :=
  let (user, hostPart) := splitLastAt authority
  match parseHost hostPart with
  | some h => some (user.map (fun u => (⟨u⟩ : String)), h)
  | none => none

/-- Model of `URL.setPath`: validate the escapes, keep both the decoded
path and the original text. -/
def setPathModel (p : List Char) : Option (List Char × List Char) :=
  (unescapePct p).map (fun dec => (dec, p))

def emptyGoURL : GoURL := ⟨"", "", none, "", "", "", false, "", ""⟩

/-- Model of `net/url.parse(rest0, viaRequest := false)` (fragment already
split off by the caller). -/
def parseURLPart (rest0 : List Char) : Option GoURL :=
  if containsCtl rest0 then none
  else if rest0 = ['*'] then some { emptyGoURL with path := "*", rawPath := "*" }
  else
    match getScheme rest0 with
    | .error _ => none
    | .ok (schemeChars, rest1) =>
      let scheme := lowerStr ⟨schemeChars⟩
      let fq :=
        rest1.getLast? = some '?' ∧ ¬ rest1.dropLast.contains '?'
      let (rest2, rawQuery, forceQuery) :=
        if fq then (rest1.dropLast, [], true)
        else
          let (a, b) := splitCut rest1 '?'
          (a, b, false)
      if !(rest2.head? == some '/') then
        if !(schemeChars == []) then
          some { emptyGoURL with
                 scheme := scheme, opq := ⟨rest2⟩, forceQuery := forceQuery,
                 rawQuery := ⟨rawQuery⟩ }
        else if (rest2.takeWhile (fun c => !(c == '/'))).contains ':' then none
        else
          match setPathModel rest2 with
          | none => none
          | some (dec, raw) =>
            some { emptyGoURL with
                   scheme := scheme, path := ⟨dec⟩, rawPath := ⟨raw⟩,
                   forceQuery := forceQuery, rawQuery := ⟨rawQuery⟩ }
      else
        if rest2.take 2 = ['/', '/'] ∧
            (schemeChars ≠ [] ∨ rest2.take 3 ≠ ['/', '/', '/']) then
          let (authority, rest3) := splitKeep (rest2.drop 2) '/'
          match parseAuthority authority with
          | none => none
          | some (user, host) =>
            match setPathModel rest3 with
            | none => none
            | some (dec, raw) =>
              some { emptyGoURL with
                     scheme := scheme, user := user, host := ⟨host⟩,
                     path := ⟨dec⟩, rawPath := ⟨raw⟩,
                     forceQuery := forceQuery, rawQuery := ⟨rawQuery⟩ }
        else
          match setPathModel rest2 with
          | none => none
          | some (dec, raw) =>
            some { emptyGoURL with
                   scheme := scheme, path := ⟨dec⟩, rawPath := ⟨raw⟩,
                   forceQuery := forceQuery, rawQuery := ⟨rawQuery⟩ }

/-- Model of `net/url.Parse`: split off the fragment at the first `#`,
parse the rest, then validate and attach the fragment. -/
def urlParse (s : String) : Option GoURL :=
  let (u, frag) := splitCut s.data '#'
  match parseURLPart u with
  | none => none
  | some url =>
    if frag = [] then some url
    else
      match unescapePct frag with
      | none => none
      | some _ => some { url with fragment := ⟨frag⟩ }

/-- Model of `net/url.URL.String` (see the section comment for the
round-trip simplifications). -/
def urlString (u : GoURL) : String :=
  let schemePart := if !(u.scheme == "") then u.scheme ++ ":" else ""
  let mainPart :=
    if !(u.opq == "") then u.opq
    else
      let auth :=
        if !(u.scheme == "") || !(u.host == "") || u.user.isSome then
          (if !(u.host == "") || !(u.path == "") || u.user.isSome then "//" else "")
            ++ (match u.user with | some ui => ui ++ "@" | none => "")
            ++ u.host
        else ""
      let p := u.rawPath
      let slash :=
        if !(p == "") && !(strStartsWith p "/") && !(u.host == "") then "/" else ""
      let dotSlash :=
        if schemePart == "" && auth == "" && slash == "" &&
            (p.data.takeWhile (fun c => !(c == '/'))).contains ':' then "./"
        else ""
      auth ++ slash ++ dotSlash ++ p
  let queryPart := if u.forceQuery || !(u.rawQuery == "") then "?" ++ u.rawQuery else ""
  let fragPart := if !(u.fragment == "") then "#" ++ u.fragment else ""
  schemePart ++ mainPart ++ queryPart ++ fragPart

/-! ### The record-processing worker (`main.go` 183-242) -/

/-- The three mutually exclusive transform-mode flags, checked in the order
the worker checks them. -/
structure Flags where
  onlyQuery : Bool
  onlyQueryKeys : Bool
  noQuery : Bool
deriving DecidableEq, Repr

def dfltFlags : Flags := ⟨false, false, false⟩
def oqFlags : Flags := ⟨true, false, false⟩
def okqFlags : Flags := ⟨false, true, false⟩
def nqFlags : Flags := ⟨false, false, true⟩

/-- The `path` local of the worker (`main.go` 189-193) for an
already-trimmed line: the parsed URL's path when parsing succeeded and the
path is non-empty, the whole line otherwise. -/
def recordPath (l : String) : String :=
  match urlParse l with
  | some u => if !(u.path == "") then u.path else l
  | none => l

/-- One query segment's contribution in query-keys mode
(`main.go` 215-230): the portion before the first `=`; skipped when empty;
percent-decoded when `url.QueryUnescape` succeeds, kept raw otherwise. -/
def keyOfPair (p : List Char) : Option (List Char) :=
  let k := p.takeWhile (fun c => !(c == '='))
  if k = [] then none
  else
    match unescapeQuery k with
    | some un => some un
    | none => some k

/-- The lines emitted for a raw query in query-keys mode
(`main.go` 214-230): split on `&` or `;`, emit each segment's key. -/
def queryKeysOf (rq : String) : List String :=
  ((fieldsFunc rq.data (fun c => c == '&' || c == ';')).filterMap keyOfPair).map
    (fun k => (⟨k⟩ : String))

/-- Body of the record-processing worker for one raw line
(`main.go` 183-242): trim, drop blanks, parse, extension-filter, then the
mode dispatch. Returns the list of strings pushed onto the results
channel. -/
def processLine (fl : Flags) (extRegexToks : Option (List String))
    (includeMode : Bool) (line : String) : List String :=
  let l := trimS line
  if l = "" then []
  else
    let u? := urlParse l
    let path := recordPath l
    let dropped :=
      match extRegexToks with
      | some toks =>
        let m := extMatch toks path
        (includeMode && !m) || (!includeMode && m)
      | none => false
    if dropped then []
    else if fl.onlyQuery then
      match u? with
      | some u => if !(u.rawQuery == "") then [u.rawQuery] else []
      | none => []
    else if fl.onlyQueryKeys then
      match u? with
      | some u => if !(u.rawQuery == "") then queryKeysOf u.rawQuery else []
      | none => []
    else if fl.noQuery && u?.isSome then
      match u? with
      | some u => [urlString { u with rawQuery := "" }]
      | none => []
    else [l]

/-! ### The orchestrator's page-count handling (`main.go` 50-104) -/

/-- The scanner loop over the page-count response body
(`main.go` 50-58): the first line that trims to something non-empty, or
`""` when every line is blank. -/
def firstNonBlank : List String → String
  | [] => ""
  | l :: rest => let t := trimS l; if t = "" then firstNonBlank rest else t

/-- Decimal digit-string value. -/
def digitsToNat (ds : List Char) : Option Nat :=
  if ds = [] then none
  else if ds.all isDigitChar then
    some (ds.foldl (fun a c => a * 10 + (c.toNat - 48)) 0)
  else none

/-- Model of `strconv.Atoi` (overflow ignored: page counts are small). -/
def atoiModel (s : String) : Option Int :=
  match s.data with
  | '+' :: ds => (digitsToNat ds).map Int.ofNat
  | '-' :: ds => (digitsToNat ds).map (fun n => -(n : Int))
  | ds => (digitsToNat ds).map Int.ofNat

/-- The `pages` value (`main.go` 65-75): `0` for a blank body, the parsed
integer when `Atoi` succeeds, `1` (with a warning) otherwise. -/
def pagesFromBody (body : List String) : Int :=
  let numStr := firstNonBlank body
  if numStr = "" then 0
  else
    match atoiModel numStr with
    | some n => n
    | none => 1

/-- Sequentialised model of a whole run after the page-count response body
has been read (`main.go` 65-290): compute `pages`, compile the extension
filter (exiting 1 on a compile error), return successfully with no output
when `pages = 0`, otherwise push every page's fetched lines through the
worker transform and the deduplicating sink. The first component is the
process exit code, the second the emitted output lines. -/
def runModel (countBody : List String) (includeCSV excludeCSV : String)
    (pageFetch : Nat → Nat → Except Unit Response) (fl : Flags) : Int × List String :=
  let pages := pagesFromBody countBody
  let c := compileExtRegex includeCSV excludeCSV
  if c.compileErr then (1, [])
  else if pages = 0 then (0, [])
  else
    let rawLines := (List.range pages.toNat).foldr
      (fun p acc => (fetchPage (pageFetch p)).lines ++ acc) []
    (0, sinkRun (rawLines.foldr (fun l acc => processLine fl c.toks c.includeMode l ++ acc) []))

/-! ### Byte-level model of `CompileExtRegex`

Go strings are byte strings: `os.Args` may carry arbitrary bytes, and
`regexp.Compile` rejects a pattern whose bytes are not valid UTF-8 with
`ErrInvalidUTF8` (`regexp/syntax` decodes the pattern rune by rune). The
character-level model above works over decoded text, where that failure
cannot arise; the definitions below model `CompileExtRegex` over raw
bytes (`List Nat`, each in `0..255`) so the UTF-8 failure path is
representable. `regexp.Compile` succeeding is modelled as: the pattern
bytes are valid UTF-8 (`utf8Valid`, translated from Go's
`unicode/utf8` accept ranges) and the byte sequence passes the syntactic
scanner `scanReB` (the byte-level counterpart of `scanRe`; bytes ≥ 0x80
are literal once UTF-8 validity is established separately, since the
parser treats every decoded non-ASCII rune as a literal). -/

/-- Model of a UTF-8 continuation byte (`0x80..0xBF`). -/
def utf8ContB (b : Nat) : Bool := 0x80 ≤ b && b ≤ 0xBF

/-- Sequence length for a lead byte, after Go's `utf8.first` table
(`0xC0`/`0xC1` and bytes above `0xF4` are invalid leads). -/
def utf8SeqLen (b0 : Nat) : Nat :=
  if b0 < 0x80 then 1
  else if 0xC2 ≤ b0 && b0 ≤ 0xDF then 2
  else if 0xE0 ≤ b0 && b0 ≤ 0xEF then 3
  else if 0xF0 ≤ b0 && b0 ≤ 0xF4 then 4
  else 0

/-- Lower bound of the accept range for the second byte, after Go's
`utf8.acceptRanges` (tighter for `0xE0`/`0xF0` to exclude overlong
encodings). -/
def utf8B2Lo (b0 : Nat) : Nat :=
  if b0 == 0xE0 then 0xA0 else if b0 == 0xF0 then 0x90 else 0x80

/-- Upper bound of the accept range for the second byte (tighter for
`0xED`/`0xF4` to exclude surrogates and code points above `U+10FFFF`). -/
def utf8B2Hi (b0 : Nat) : Nat :=
  if b0 == 0xED then 0x9F else if b0 == 0xF4 then 0x8F else 0xBF

/-- Model of Go `utf8.Valid` on a byte list, presented length-laddered: a
lead byte must be followed by its full accept-range-checked sequence (a
truncated trailing sequence is invalid). -/
def utf8Valid : List Nat → Bool
  | [] => true
  | [b0] => decide (b0 < 0x80)
  | [b0, b1] =>
    if b0 < 0x80 then utf8Valid [b1]
    else if utf8SeqLen b0 == 2 then utf8B2Lo b0 ≤ b1 && b1 ≤ utf8B2Hi b0
    else false
  | [b0, b1, b2] =>
    if b0 < 0x80 then utf8Valid [b1, b2]
    else if utf8SeqLen b0 == 2 then
      (utf8B2Lo b0 ≤ b1 && b1 ≤ utf8B2Hi b0) && utf8Valid [b2]
    else if utf8SeqLen b0 == 3 then
      (utf8B2Lo b0 ≤ b1 && b1 ≤ utf8B2Hi b0) && utf8ContB b2
    else false
  | b0 :: b1 :: b2 :: b3 :: rest =>
    if b0 < 0x80 then utf8Valid (b1 :: b2 :: b3 :: rest)
    else if utf8SeqLen b0 == 2 then
      (utf8B2Lo b0 ≤ b1 && b1 ≤ utf8B2Hi b0) && utf8Valid (b2 :: b3 :: rest)
    else if utf8SeqLen b0 == 3 then
      (utf8B2Lo b0 ≤ b1 && b1 ≤ utf8B2Hi b0) && utf8ContB b2 && utf8Valid (b3 :: rest)
    else if utf8SeqLen b0 == 4 then
      (utf8B2Lo b0 ≤ b1 && b1 ≤ utf8B2Hi b0) && utf8ContB b2 && utf8ContB b3 &&
        utf8Valid rest
    else false

/-- Byte-level model of Go's ASCII whitespace set (`strings.asciiSpace`;
no non-ASCII whitespace is relevant here — a lone high byte is never
whitespace, and multi-byte whitespace runes cannot occur in the inputs
the claims quantify over). -/
def isSpaceByte (b : Nat) : Bool :=
  b == 32 || b == 9 || b == 10 || b == 13 || b == 11 || b == 12

/-- Byte-level model of `strings.TrimSpace`. -/
def trimBytes (s : List Nat) : List Nat :=
  ((s.dropWhile isSpaceByte).reverse.dropWhile isSpaceByte).reverse

/-- Byte-level model of `strings.Split` on a one-byte separator. -/
def splitByteAux (sep : Nat) (acc : List Nat) : List Nat → List (List Nat)
  | [] => [acc.reverse]
  | b :: rest =>
    if b == sep then acc.reverse :: splitByteAux sep [] rest
    else splitByteAux sep (b :: acc) rest

/-- Byte-level model of `strings.Split(csv, ",")` (`','` is byte 44). -/
def splitCommaB (s : List Nat) : List (List Nat) := splitByteAux 44 [] s

/-- Byte-level model of `strings.TrimPrefix(p, ".")` (`'.'` is byte 46). -/
def trimPrefixDotB : List Nat → List Nat
  | 46 :: rest => rest
  | s => s

/-- The metacharacter bytes escaped by `regexp.QuoteMeta`
(`\ . + * ? ( ) | [ ] { } ^ $`, all ASCII; bytes ≥ 0x80 pass through). -/
def regexSpecialsB : List Nat := [92, 46, 43, 42, 63, 40, 41, 124, 91, 93, 123, 125, 94, 36]

/-- Byte-level model of `regexp.QuoteMeta`. -/
def quoteMetaB : List Nat → List Nat
  | [] => []
  | b :: rest =>
    if b ∈ regexSpecialsB then 92 :: b :: quoteMetaB rest else b :: quoteMetaB rest

/-- Byte-level counterpart of `reBad`. -/
def reBadB : List Nat := [42, 43, 63, 91, 93, 123, 125]

/-- Byte-level counterpart of `scanRe` (`(` 40, `?` 63, `i` 105, `)` 41,
`\` 92, `|` 124, `$` 36). -/
def scanReB : List Nat → Nat → Bool
  | [], d => d == 0
  | [92], _ => false
  | 92 :: b2 :: rest2, d => if b2 ∈ regexSpecialsB then scanReB rest2 d else false
  | 40 :: 63 :: 105 :: 41 :: rest2, d => scanReB rest2 d
  | 40 :: rest, d => scanReB rest (d + 1)
  | 41 :: rest, d =>
    match d with
    | 0 => false
    | d' + 1 => scanReB rest d'
  | b :: rest, d => if b ∈ reBadB then false else scanReB rest d

/-- Byte-level model of `strings.Join(parts, "|")`. -/
def extAlternationB : List (List Nat) → List Nat
  | [] => []
  | [p] => p
  | p :: ps => p ++ 124 :: extAlternationB ps

/-- The pattern bytes `(?i)\.(` + Join(parts, "|") + `)$` built by
`CompileExtRegex`, with `parts` already QuoteMeta'd. -/
def extPatternBytes (parts : List (List Nat)) : List Nat :=
  [40, 63, 105, 41, 92, 46, 40] ++ extAlternationB parts ++ [41, 36]

/-- Byte-level token extraction of `CompileExtRegex` (split on commas,
trim, skip empties, strip one leading dot). -/
def extTokensB (csv : List Nat) : List (List Nat) :=
  (((splitCommaB csv).map trimBytes).filter (fun p => !(p == []))).map trimPrefixDotB

/-- Byte-level result of `CompileExtRegex`. -/
structure ExtCompileResB where
  toks : Option (List (List Nat))
  includeMode : Bool
  compileErr : Bool
deriving DecidableEq, Repr

/-- Byte-level model of `CompileExtRegex` (unnamed helper file, lines
10-32): compilation succeeds exactly when the assembled pattern bytes are
valid UTF-8 and syntactically well-formed. -/
def compileExtRegexB (includeCSV excludeCSV : List Nat) : ExtCompileResB :=
  let includeMode := !(trimBytes includeCSV == [])
  let csv := if includeMode then includeCSV else excludeCSV
  let toks := extTokensB csv
  if toks = [] then ⟨none, includeMode, false⟩
  else if utf8Valid (extPatternBytes (toks.map quoteMetaB)) &&
      scanReB (extPatternBytes (toks.map quoteMetaB)) 0 then
    ⟨some toks, includeMode, false⟩
  else ⟨none, includeMode, true⟩

/-- Invariant of the retry loop after `k` attempts have been offered: the
sleep log is `1, 2, ..., len`; the loop has logged only retry warnings; as
long as the loop has not broken out, it has made exactly `k` attempts, has
slept after each of them, and (unless it has not started) its last attempt
failed, leaving either a transport error, a nil response, or a closed
body. -/
def loopInv (k : Nat) (st : LoopState) : Prop :=
  st.sleeps = List.range' 1 st.sleeps.length ∧
  st.logs.all (fun e => match e with | LogEvent.retryWarn _ => true | _ => false) = true ∧
  (st.broke = false → st.attemptsMade = k ∧ st.sleeps.length = k ∧
    (st.attemptsMade = 0 ∨ st.ierr = true ∨ st.respP = none ∨ st.closed = true)) ∧
  st.attemptsMade ≤ k

/-! ## Theorems -/

/-! ### The deduplicating sink (claim C1) -/

theorem foldl_sinkStep (rs : List String) (seen out : List String) :
    rs.foldl sinkStep (seen, out) = (sinkSeen seen rs, out ++ sinkEmit seen rs) := by
  induction rs generalizing seen out with
  | nil => simp [sinkEmit, sinkSeen]
  | cons r rs ih =>
    by_cases h : r ∈ seen
    · simp [List.foldl_cons, sinkStep, sinkEmit, sinkSeen, h, ih]
    · simp [List.foldl_cons, sinkStep, sinkEmit, sinkSeen, h, ih]

theorem sinkRun_eq_sinkEmit (rs : List String) : sinkRun rs = sinkEmit [] rs := by
  simp [sinkRun, foldl_sinkStep]

theorem sinkEmit_sublist (seen rs : List String) : (sinkEmit seen rs).Sublist rs := by
  induction rs generalizing seen with
  | nil => simp [sinkEmit]
  | cons r rs ih =>
    by_cases h : r ∈ seen
    · simp only [sinkEmit, if_pos h]
      exact (ih seen).cons r
    · simp only [sinkEmit, if_neg h]
      exact (ih (r :: seen)).cons₂ r

theorem sinkEmit_not_mem_seen (seen rs : List String) :
    ∀ x ∈ sinkEmit seen rs, x ∉ seen := by
  induction rs generalizing seen with
  | nil => simp [sinkEmit]
  | cons r rs ih =>
    by_cases h : r ∈ seen
    · simpa [sinkEmit, if_pos h] using ih seen
    · intro x hx
      simp only [sinkEmit, if_neg h, List.mem_cons] at hx
      rcases hx with rfl | hx
      · exact h
      · have := ih (r :: seen) x hx
        exact fun hs => this (List.mem_cons_of_mem r hs)

theorem sinkEmit_nodup (seen rs : List String) : (sinkEmit seen rs).Nodup := by
  induction rs generalizing seen with
  | nil => simp [sinkEmit]
  | cons r rs ih =>
    by_cases h : r ∈ seen
    · simpa [sinkEmit, if_pos h] using ih seen
    · simp only [sinkEmit, if_neg h, List.nodup_cons]
      refine ⟨fun hr => ?_, ih (r :: seen)⟩
      exact sinkEmit_not_mem_seen (r :: seen) rs r hr (List.mem_cons_self r seen)

theorem mem_sinkEmit (seen rs : List String) (x : String) :
    x ∈ sinkEmit seen rs ↔ x ∈ rs ∧ x ∉ seen := by
  induction rs generalizing seen with
  | nil => simp [sinkEmit]
  | cons r rs ih =>
    by_cases h : r ∈ seen
    · simp only [sinkEmit, if_pos h, ih, List.mem_cons]
      constructor
      · rintro ⟨hx, hs⟩; exact ⟨Or.inr hx, hs⟩
      · rintro ⟨hx | hx, hs⟩
        · exact absurd (hx ▸ h) hs
        · exact ⟨hx, hs⟩
    · simp only [sinkEmit, if_neg h, List.mem_cons, ih]
      constructor
      · rintro (rfl | ⟨hx, hs⟩)
        · exact ⟨Or.inl rfl, h⟩
        · exact ⟨Or.inr hx, fun hxs => hs (Or.inr hxs)⟩
      · rintro ⟨rfl | hx, hs⟩
        · exact Or.inl rfl
        · by_cases hxr : x = r
          · exact Or.inl hxr
          · exact Or.inr ⟨hx, fun hc => hc.elim hxr hs⟩

theorem foldl_sinkStepDests (rs : List String) (seen : List String)
    (dests : List (List String)) :
    rs.foldl sinkStepDests (seen, dests) =
      (sinkSeen seen rs, dests.map (fun d => d ++ sinkEmit seen rs)) := by
  induction rs generalizing seen dests with
  | nil => simp [sinkEmit, sinkSeen]
  | cons r rs ih =>
    by_cases h : r ∈ seen
    · simp [List.foldl_cons, sinkStepDests, sinkEmit, sinkSeen, h, ih]
    · simp [List.foldl_cons, sinkStepDests, h, ih, multiWrite, Function.comp_def,
        List.append_assoc, sinkEmit, sinkSeen]

/-- C1: the deduplicating sink never emits a duplicate: its output has no
duplicate lines, is a subsequence of the arriving result stream (each
surviving string is written exactly at its first arrival and later
arrivals of a string already in the seen set are discarded silently),
covers exactly the set of arrived strings, and the identical line sequence
is written to every one of the `k` configured output destinations. -/
theorem sink_dedup_spec (rs : List String) (k : Nat) :
    (sinkRun rs).Nodup ∧ (sinkRun rs).Sublist rs ∧
    (sinkRun rs).toFinset = rs.toFinset ∧
    sinkRunDests k rs = List.replicate k (sinkRun rs) := by
  refine ⟨?_, ?_, ?_, ?_⟩
  · rw [sinkRun_eq_sinkEmit]; exact sinkEmit_nodup [] rs
  · rw [sinkRun_eq_sinkEmit]; exact sinkEmit_sublist [] rs
  · rw [sinkRun_eq_sinkEmit]
    ext x
    simp [List.mem_toFinset, mem_sinkEmit]
  · rw [sinkRun_eq_sinkEmit]
    simp [sinkRunDests, foldl_sinkStepDests, List.map_replicate]

/-! ### The completed-page counter (claim C2) -/

theorem fetchPage_delta (get : Nat → Except Unit Response) :
    (fetchPage get).delta = 1 := by
  unfold fetchPage
  dsimp only
  (repeat' split) <;> rfl

theorem counterTrace_eq_range' (tasks : List (Nat → Except Unit Response)) (c : Nat) :
    tasks.scanl (fun c t => c + (fetchPage t).delta) c = List.range' c (tasks.length + 1) := by
  induction tasks generalizing c with
  | nil => simp [List.scanl_nil, List.range']
  | cons t ts ih =>
    rw [List.scanl_cons]
    have hd : c + (fetchPage t).delta = c + 1 := by rw [fetchPage_delta]
    rw [hd, ih]
    simp [List.range']

/-- C2: over any run with `totalPages = tasks.length` page tasks, the
completed-page counter's value trace is exactly `0, 1, ..., totalPages`:
it is monotonically non-decreasing, each page task increments it exactly
once whether the fetch succeeded or exhausted its retries, it never
exceeds `totalPages`, and it equals `totalPages` when the fetcher pool
completes. -/
theorem pages_counter_spec (tasks : List (Nat → Except Unit Response)) :
    counterTrace tasks = List.range (tasks.length + 1) ∧
    List.Chain' (· ≤ ·) (counterTrace tasks) ∧
    (counterTrace tasks).getLast? = some tasks.length ∧
    (counterTrace tasks).all (fun v => decide (v ≤ tasks.length)) = true ∧
    ∀ get, (fetchPage get).delta = 1 := by
  have htr : counterTrace tasks = List.range (tasks.length + 1) := by
    rw [counterTrace, counterTrace_eq_range', List.range_eq_range']
  refine ⟨htr, ?_, ?_, ?_, fetchPage_delta⟩
  · rw [htr, List.chain'_range_succ]
    exact fun m _ => Nat.le_succ m
  · rw [htr, List.range_succ, List.getLast?_concat]
  · rw [htr, List.all_eq_true]
    intro v hv
    simp only [List.mem_range] at hv
    simpa using Nat.lt_succ_iff.mp hv

/-! ### The retry loop (claim C3) -/

theorem attemptStep_inv (get : Nat → Except Unit Response) (k : Nat) (st : LoopState)
    (h : loopInv k st) : loopInv (k + 1) (attemptStep get st (k + 1)) := by
  obtain ⟨hs, hl, hb, ha⟩ := h
  by_cases hbr : st.broke = true
  · simp only [attemptStep, if_pos hbr]
    exact ⟨hs, hl, fun hf => absurd hbr (by simp [hf]), ha.trans (Nat.le_succ k)⟩
  · have hbf : st.broke = false := by simpa using hbr
    obtain ⟨hk, hlen, _⟩ := hb hbf
    have hrange : st.sleeps ++ [k + 1] = List.range' 1 (st.sleeps ++ [k + 1]).length := by
      rw [List.length_append, hlen]
      rw [hs, hlen]
      simp [List.range'_concat, Nat.add_comm]
    have hlog : ∀ a, (st.logs ++ [LogEvent.retryWarn a]).all
        (fun e => match e with | LogEvent.retryWarn _ => true | _ => false) = true := by
      intro a
      simp only [List.all_append, hl, Bool.true_and]
      rfl
    simp only [attemptStep, if_neg hbr]
    cases hg : get (k + 1) with
    | error u =>
      refine ⟨hrange, hlog _, fun _ => ⟨by simp [hk], ?_, ?_⟩, by simp [hk]⟩
      · simp [List.length_append, hlen]
      · simp
    | ok r =>
      by_cases h2 : is2xx r = true
      · simp only [h2, ite_true]
        exact ⟨hs, hl, fun hf => Bool.noConfusion hf, by simp [hk]⟩
      · simp only [h2, ite_false, if_neg h2]
        refine ⟨hrange, hlog _, fun _ => ⟨by simp [hk], ?_, ?_⟩, by simp [hk]⟩
        · simp [List.length_append, hlen]
        · simp

theorem foldl_attemptStep_inv (get : Nat → Except Unit Response) (m : Nat) :
    ∀ (k : Nat) (st : LoopState), loopInv k st →
      loopInv (k + m) ((List.range' (k + 1) m).foldl (attemptStep get) st) := by
  induction m with
  | zero => intro k st h; simpa using h
  | succ m ih =>
    intro k st h
    have h1 := attemptStep_inv get k st h
    have h2 := ih (k + 1) _ h1
    have hr : List.range' (k + 1) (m + 1) = (k + 1) :: List.range' (k + 2) m := by
      simp [List.range']
    rw [hr, List.foldl_cons]
    have hkm : k + 1 + m = k + (m + 1) := by omega
    rw [hkm] at h2
    exact h2

theorem runRetryLoop_inv (get : Nat → Except Unit Response) :
    loopInv 3 (runRetryLoop get) := by
  have h0 : loopInv 0 initLoopState :=
    ⟨rfl, rfl, fun _ => ⟨rfl, rfl, Or.inl rfl⟩, Nat.le_refl 0⟩
  have h := foldl_attemptStep_inv get 3 0 initLoopState h0
  simpa [runRetryLoop, maxRetries] using h

theorem fetchError_not_mem_of_all_retry (logs : List LogEvent)
    (hl : logs.all (fun e => match e with | LogEvent.retryWarn _ => true | _ => false) = true) :
    LogEvent.fetchError ∉ logs := by
  intro hm
  have h := List.all_eq_true.mp hl _ hm
  simp at h

/-- C3 (amended): the fetcher makes at most 3 attempts per page and sleeps
`attempt` time units after each failed attempt (the sleep log is exactly
`1, 2, ..., len`, a linear backoff). When the page exhausts its retries the
fetcher has made exactly 3 attempts, contributes no lines, still counts
the page as completed (never fatal to the run), and reports the red
error-level status if and only if the run ended in the transport-error
branch (`ierr != nil || respP == nil`); an exhaustion whose final attempt
returned a non-2xx response instead falls through to the body scan and
reports at most warnings. -/
theorem fetch_retry_spec (get : Nat → Except Unit Response) :
    (fetchPage get).attemptsMade ≤ 3 ∧
    (fetchPage get).sleeps = List.range' 1 (fetchPage get).sleeps.length ∧
    ((fetchPage get).succeeded = false →
      (fetchPage get).attemptsMade = 3 ∧ (fetchPage get).lines = [] ∧
      (fetchPage get).delta = 1 ∧
      (LogEvent.fetchError ∈ (fetchPage get).logs ↔ (fetchPage get).errBranch = true)) := by
  obtain ⟨hs, hl, hb, ha⟩ := runRetryLoop_inv get
  unfold fetchPage
  dsimp only
  split
  case isTrue hcond =>
    refine ⟨ha, hs, fun hbroke => ?_⟩
    obtain ⟨h3, -, -⟩ := hb hbroke
    refine ⟨h3, rfl, rfl, ?_⟩
    simp
  case isFalse hcond =>
    split
    next r heq =>
      split
      case isTrue hclosed =>
        refine ⟨ha, hs, fun hbroke => ?_⟩
        obtain ⟨h3, -, -⟩ := hb hbroke
        refine ⟨h3, rfl, rfl, ?_⟩
        constructor
        · intro hmem
          rcases List.mem_append.mp hmem with hmem | hmem
          · exact absurd hmem (fetchError_not_mem_of_all_retry _ hl)
          · simp at hmem
        · intro hfalse
          exact Bool.noConfusion hfalse
      case isFalse hclosed =>
        refine ⟨ha, hs, fun hbroke => ?_⟩
        obtain ⟨h3, -, hdisj⟩ := hb hbroke
        exfalso
        rcases hdisj with h0 | hi | hn | hc
        · rw [h3] at h0; cases h0
        · exact hcond (by simp [hi])
        · rw [heq] at hn; cases hn
        · exact hclosed hc
    next heq =>
      refine ⟨ha, hs, fun hbroke => ?_⟩
      obtain ⟨h3, -, -⟩ := hb hbroke
      refine ⟨h3, rfl, rfl, ?_⟩
      simp

/-- Counterexample to C3 as stated: a page whose three attempts all return
an HTTP 500 response (no transport error) exhausts its retries, yet the
fetcher reports no error-level status for it — the `ierr != nil || respP
== nil` check after the loop does not catch non-2xx exhaustion, so the
code falls through to scanning the (already closed) body and logs only a
warning. -/
theorem fetch_retry_counterexample :
    (fetchPage (fun _ => Except.ok ⟨500, ["line"]⟩)).succeeded = false ∧
    LogEvent.fetchError ∉ (fetchPage (fun _ => Except.ok ⟨500, ["line"]⟩)).logs := by
  constructor
  · rfl
  · decide

theorem fetch_retry_spec_witness :
    (fetchPage (fun _ => Except.error ())).succeeded = false ∧
    (fetchPage (fun _ => Except.error ())).attemptsMade = 3 ∧
    (fetchPage (fun _ => Except.error ())).lines = [] ∧
    (fetchPage (fun _ => Except.error ())).delta = 1 :=
  ⟨by decide,
   ((fetch_retry_spec (fun _ => Except.error ())).2.2 (by decide)).1,
   ((fetch_retry_spec (fun _ => Except.error ())).2.2 (by decide)).2.1,
   ((fetch_retry_spec (fun _ => Except.error ())).2.2 (by decide)).2.2.1⟩

/-! ### Strip-query mode (claim C4) -/

/-- Counterexample to C4 as stated: on `https://x.example/p?q=1#f` the
strip-query mode does not emit `https://x.example/p` — `URL.String`
preserves the fragment, so the emitted line is `https://x.example/p#f`. -/
theorem strip_query_counterexample :
    ¬ (processLine nqFlags none false "https://x.example/p?q=1#f" =
        ["https://x.example/p"]) := by
  decide

/-- C4 (amended): strip-query mode emits the parsed URL re-serialized with
its raw query cleared; scheme, host, path and fragment are all preserved.
In particular on `https://x.example/p?q=1#f` it emits exactly
`https://x.example/p#f` (query removed, fragment kept). -/
theorem strip_query_spec :
    processLine nqFlags none false "https://x.example/p?q=1#f" =
      ["https://x.example/p#f"] ∧
    ∀ (line : String) (u : GoURL), urlParse (trimS line) = some u →
      ¬ trimS line = "" →
      processLine nqFlags none false line = [urlString { u with rawQuery := "" }] ∧
      ({ u with rawQuery := "" } : GoURL).scheme = u.scheme ∧
      ({ u with rawQuery := "" } : GoURL).host = u.host ∧
      ({ u with rawQuery := "" } : GoURL).path = u.path ∧
      ({ u with rawQuery := "" } : GoURL).fragment = u.fragment := by
  constructor
  · decide
  · intro line u h hne
    refine ⟨?_, rfl, rfl, rfl, rfl⟩
    simp [processLine, h, hne, nqFlags]

theorem strip_query_spec_witness :
    processLine nqFlags none false "http://h/p?x=1#g" = ["http://h/p#g"] :=
  ((strip_query_spec.2 "http://h/p?x=1#g"
      ⟨"http", "", none, "h", "/p", "/p", false, "x=1", "g"⟩
      (by decide) (by decide)).1).trans (by decide)

/-! ### Pattern normalization (claim C5) -/

theorem not_prefix_append_star (p s : List Char) (hlast : p.getLast? ≠ some '*')
    (h : ¬ p <+: s) : ¬ p <+: s ++ ['*'] := by
  intro hp
  rcases List.prefix_concat_iff.mp hp with heq | hpre
  · exact hlast (by rw [heq, List.getLast?_concat])
  · exact h hpre

theorem strStartsWith_false_iff (s p : String) :
    strStartsWith s p = false ↔ ¬ p.data <+: s.data := by
  rw [← Bool.not_eq_true, strStartsWith, List.isPrefixOf_iff_prefix]

/-- Counterexample to C5 as stated: the normalized pattern does not always
end in a wildcard (`a*b` contains a `*` so nothing is appended and the
result ends in `b`), and it can still carry a scheme prefix (only one
leading `http://` is stripped from `http://http://x`). -/
theorem normalizeURL_counterexample :
    ¬ (strEndsWith (normalizeURL "a*b") "*" = true) ∧
    strStartsWith (normalizeURL "http://http://x") "http://" = true := by
  decide

/-- C5 (amended): after trimming and stripping one `http://` or `https://`
prefix, the pattern gets a `*` appended (and hence ends in a wildcard)
whenever it does not already contain a `*` anywhere; and it carries no
scheme prefix provided the stripped input itself no longer starts with a
scheme (a doubled scheme prefix survives). Input `example.com` becomes
`example.com*`. -/
theorem normalizeURL_spec (u : String) :
    (¬ (stripScheme u).data.contains '*' = true →
      normalizeURL u = stripScheme u ++ "*" ∧
      strEndsWith (normalizeURL u) "*" = true) ∧
    (strStartsWith (stripScheme u) "http://" = false →
      strStartsWith (stripScheme u) "https://" = false →
      strStartsWith (normalizeURL u) "http://" = false ∧
      strStartsWith (normalizeURL u) "https://" = false) ∧
    normalizeURL "example.com" = "example.com*" := by
  refine ⟨?_, ?_, by decide⟩
  · intro h
    have hn : normalizeURL u = stripScheme u ++ "*" := by
      simp only [normalizeURL]
      rw [if_pos]
      simpa using h
    refine ⟨hn, ?_⟩
    rw [hn, strEndsWith, List.isSuffixOf_iff_suffix, String.data_append]
    exact List.suffix_append _ _
  · intro h1 h2
    by_cases hc : (stripScheme u).data.contains '*' = true
    · have hn : normalizeURL u = stripScheme u := by
        simp only [normalizeURL]
        rw [if_neg]
        simpa using hc
      rw [hn]
      exact ⟨h1, h2⟩
    · have hn : normalizeURL u = stripScheme u ++ "*" := by
        simp only [normalizeURL]
        rw [if_pos]
        simpa using hc
      rw [hn]
      constructor
      · rw [strStartsWith_false_iff, String.data_append]
        exact not_prefix_append_star _ _ (by decide)
          ((strStartsWith_false_iff _ _).mp h1)
      · rw [strStartsWith_false_iff, String.data_append]
        exact not_prefix_append_star _ _ (by decide)
          ((strStartsWith_false_iff _ _).mp h2)

theorem normalizeURL_spec_witness :
    strEndsWith (normalizeURL "example.com") "*" = true ∧
    strStartsWith (normalizeURL "example.com") "http://" = false :=
  ⟨((normalizeURL_spec "example.com").1 (by decide)).2,
   ((normalizeURL_spec "example.com").2.1 (by decide) (by decide)).1⟩

/-! ### Regex pattern validity (claim C10) -/

theorem scanRe_plain (c : Char) (hc : c ∉ regexSpecials) (rest : List Char) (d : Nat) :
    scanRe (c :: rest) d = scanRe rest d := by
  have hsub : ∀ x ∈ reBad, x ∈ regexSpecials := by decide
  have h1 : c ≠ '\\' := fun h => hc (by rw [h]; decide)
  have h2 : c ≠ '(' := fun h => hc (by rw [h]; decide)
  have h3 : c ≠ ')' := fun h => hc (by rw [h]; decide)
  have h4 : c ∉ reBad := fun h => hc (hsub c h)
  rw [scanRe.eq_def]
  split <;> rename_i heq
  · exact absurd heq (by simp)
  · rw [List.cons_eq_cons] at heq
    exact absurd heq.1 h1
  · rw [List.cons_eq_cons] at heq
    exact absurd heq.1 h1
  · rw [List.cons_eq_cons] at heq
    exact absurd heq.1 h2
  · rw [List.cons_eq_cons] at heq
    exact absurd heq.1 h2
  · rw [List.cons_eq_cons] at heq
    exact absurd heq.1 h3
  · rw [List.cons_eq_cons] at heq
    obtain ⟨rfl, rfl⟩ := heq
    rw [if_neg h4]

theorem scanRe_esc (c : Char) (xs : List Char) (d : Nat) :
    scanRe ('\\' :: c :: xs) d = if c ∈ regexSpecials then scanRe xs d else false := rfl

theorem scanRe_quoteMeta (s : List Char) (rest : List Char) (d : Nat) :
    scanRe (quoteMeta s ++ rest) d = scanRe rest d := by
  induction s generalizing rest d with
  | nil => rfl
  | cons c s ih =>
    by_cases hc : c ∈ regexSpecials
    · rw [quoteMeta, if_pos hc]
      rw [List.cons_append, List.cons_append, scanRe_esc, if_pos hc, ih]
    · rw [quoteMeta, if_neg hc, List.cons_append, scanRe_plain c hc, ih]

theorem scanRe_alternation (parts : List (List Char)) (rest : List Char) (d : Nat) :
    scanRe (extAlternation (parts.map quoteMeta) ++ rest) d = scanRe rest d := by
  induction parts generalizing rest d with
  | nil => rfl
  | cons p ps ih =>
    cases ps with
    | nil => simp only [List.map, extAlternation, scanRe_quoteMeta]
    | cons q qs =>
      have hpipe : ∀ (xs : List Char) (dd : Nat), scanRe ('|' :: xs) dd = scanRe xs dd :=
        fun xs dd => rfl
      simp only [List.map, extAlternation, List.append_assoc, List.cons_append]
      rw [scanRe_quoteMeta, hpipe]
      simpa using ih rest d

theorem scanRe_open (x : Char) (hx : x ≠ '?') (xs : List Char) (d : Nat) :
    scanRe ('(' :: x :: xs) d = scanRe (x :: xs) (d + 1) := by
  rw [scanRe.eq_def]
  split <;> rename_i heq
  · exact absurd heq (by simp)
  · exact absurd heq (by simp)
  · rw [List.cons_eq_cons] at heq
    exact absurd heq.1 (by decide)
  · rw [List.cons_eq_cons, List.cons_eq_cons] at heq
    exact absurd heq.2.1 hx
  · rw [List.cons_eq_cons] at heq
    rw [← heq.2]
  · rw [List.cons_eq_cons] at heq
    exact absurd heq.1 (by decide)
  · rw [List.cons_eq_cons] at heq
    rename_i hopen hclose
    exact absurd heq.1.symm hopen

theorem qm_append_head_ne_qmark (p : List Char) (rest : List Char)
    (hrest : ∀ y ys, rest = y :: ys → y ≠ '?') :
    ∀ x xs, quoteMeta p ++ rest = x :: xs → x ≠ '?' := by
  cases p with
  | nil => exact fun x xs h => hrest x xs h
  | cons c cs =>
    intro x xs h
    by_cases hc : c ∈ regexSpecials
    · rw [quoteMeta, if_pos hc, List.cons_append, List.cons_eq_cons] at h
      rw [← h.1]; decide
    · rw [quoteMeta, if_neg hc, List.cons_append, List.cons_eq_cons] at h
      intro hx
      exact hc (by rw [h.1, hx]; decide)

theorem alt_head_ne_qmark (parts : List (List Char)) :
    ∀ x xs, extAlternation (parts.map quoteMeta) ++ [')', '$'] = x :: xs → x ≠ '?' := by
  cases parts with
  | nil =>
    intro x xs h
    rw [List.map_nil, show extAlternation [] = [] from rfl, List.nil_append,
      List.cons_eq_cons] at h
    rw [← h.1]; decide
  | cons p ps =>
    cases ps with
    | nil =>
      intro x xs h
      rw [List.map, List.map_nil,
        show extAlternation [quoteMeta p] = quoteMeta p from rfl] at h
      exact qm_append_head_ne_qmark p [')', '$']
        (fun y ys hy => by rw [← (List.cons_eq_cons.mp hy).1]; decide) x xs h
    | cons q qs =>
      intro x xs h
      rw [List.map, List.map,
        show extAlternation (quoteMeta p :: quoteMeta q :: List.map quoteMeta qs) =
          quoteMeta p ++ '|' :: extAlternation (quoteMeta q :: List.map quoteMeta qs)
          from rfl,
        List.append_assoc, List.cons_append] at h
      exact qm_append_head_ne_qmark p _
        (fun y ys hy => by rw [← (List.cons_eq_cons.mp hy).1]; decide) x xs h

theorem regexpOk_extPattern (parts : List (List Char)) :
    regexpOk (extPatternChars (parts.map quoteMeta)) = true := by
  unfold regexpOk extPatternChars
  have e0 : ['(', '?', 'i', ')', '\\', '.', '('] ++
      extAlternation (List.map quoteMeta parts) ++ [')', '$'] =
      '(' :: '?' :: 'i' :: ')' :: '\\' :: '.' :: '(' ::
        (extAlternation (List.map quoteMeta parts) ++ [')', '$']) := by
    simp
  rw [e0]
  rw [show ∀ (l : List Char) (d : Nat),
      scanRe ('(' :: '?' :: 'i' :: ')' :: l) d = scanRe l d from fun l d => rfl]
  rw [show ∀ (l : List Char) (d : Nat), scanRe ('\\' :: '.' :: l) d = scanRe l d from
      fun l d => by rw [scanRe_esc, if_pos (by decide)]]
  obtain ⟨x, xs, hxx⟩ := List.exists_cons_of_ne_nil
    (show extAlternation (List.map quoteMeta parts) ++ [')', '$'] ≠ [] from by simp)
  rw [hxx, scanRe_open x (alt_head_ne_qmark parts x xs hxx) xs 0, ← hxx]
  rw [scanRe_alternation]
  rfl

theorem compileExtRegex_err_false (includeCSV excludeCSV : String) :
    (compileExtRegex includeCSV excludeCSV).compileErr = false := by
  unfold compileExtRegex
  dsimp only
  split
  all_goals
    split
    · rfl
    · rw [if_pos (by
        simpa [List.map_map, Function.comp_def] using
          regexpOk_extPattern ((extTokens _).map (fun t => t.data)))]

/-! ### UTF-8 validity and the byte-level `CompileExtRegex` (claim C10)

The lemma chain below shows that the assembled pattern bytes are valid
UTF-8 whenever the CSV flag bytes are: ASCII split/trim steps cannot cut a
multi-byte sequence (continuation bytes are `≥ 0x80`, the separators and
trimmed bytes ASCII), `QuoteMeta` inserts only ASCII escapes, and the
wrapper `(?i)\.(` ... `)$` is ASCII. Combined with the byte-level scanner
acceptance this settles when `compileExtRegexB` reports success. -/

theorem uvA (b0 : Nat) (rest : List Nat) (hb : b0 < 128) :
    utf8Valid (b0 :: rest) = utf8Valid rest := by
  cases rest with
  | nil => simp [utf8Valid, hb]
  | cons b1 rt =>
    cases rt with
    | nil =>
      conv_lhs => rw [utf8Valid]
      rw [if_pos hb]
    | cons b2 rt2 =>
      cases rt2 with
      | nil =>
        conv_lhs => rw [utf8Valid]
        rw [if_pos hb]
      | cons b3 rest4 =>
        conv_lhs => rw [utf8Valid]
        rw [if_pos hb]

theorem uvNil1 (b0 : Nat) (h1 : ¬ b0 < 128) : utf8Valid [b0] = false := by
  simp [utf8Valid, h1]

theorem uv2 (b0 b1 : Nat) (rest : List Nat) (h1 : ¬ b0 < 128)
    (h2 : (utf8SeqLen b0 == 2) = true) :
    utf8Valid (b0 :: b1 :: rest) =
      ((utf8B2Lo b0 ≤ b1 && b1 ≤ utf8B2Hi b0) && utf8Valid rest) := by
  cases rest with
  | nil =>
    conv_lhs => rw [utf8Valid]
    rw [if_neg h1, if_pos h2, show utf8Valid [] = true from rfl, Bool.and_true]
  | cons b2 rt =>
    cases rt with
    | nil =>
      conv_lhs => rw [utf8Valid]
      rw [if_neg h1, if_pos h2]
    | cons b3 rest4 =>
      conv_lhs => rw [utf8Valid]
      rw [if_neg h1, if_pos h2]

theorem uv3 (b0 b1 b2 : Nat) (rest : List Nat) (h1 : ¬ b0 < 128)
    (h2 : ¬ (utf8SeqLen b0 == 2) = true) (h3 : (utf8SeqLen b0 == 3) = true) :
    utf8Valid (b0 :: b1 :: b2 :: rest) =
      ((utf8B2Lo b0 ≤ b1 && b1 ≤ utf8B2Hi b0) && utf8ContB b2 && utf8Valid rest) := by
  cases rest with
  | nil =>
    conv_lhs => rw [utf8Valid]
    rw [if_neg h1, if_neg h2, if_pos h3, show utf8Valid [] = true from rfl, Bool.and_true]
  | cons b3 rest4 =>
    conv_lhs => rw [utf8Valid]
    rw [if_neg h1, if_neg h2, if_pos h3]

theorem uv4 (b0 b1 b2 b3 : Nat) (rest : List Nat) (h1 : ¬ b0 < 128)
    (h2 : ¬ (utf8SeqLen b0 == 2) = true) (h3 : ¬ (utf8SeqLen b0 == 3) = true)
    (h4 : (utf8SeqLen b0 == 4) = true) :
    utf8Valid (b0 :: b1 :: b2 :: b3 :: rest) =
      ((utf8B2Lo b0 ≤ b1 && b1 ≤ utf8B2Hi b0) && utf8ContB b2 && utf8ContB b3 &&
        utf8Valid rest) := by
  conv_lhs => rw [utf8Valid]
  rw [if_neg h1, if_neg h2, if_neg h3, if_pos h4]

theorem uvBadElse (b0 : Nat) (rest : List Nat) (h1 : ¬ b0 < 128)
    (h2 : ¬ (utf8SeqLen b0 == 2) = true) (h3 : ¬ (utf8SeqLen b0 == 3) = true)
    (h4 : ¬ (utf8SeqLen b0 == 4) = true) :
    utf8Valid (b0 :: rest) = false := by
  cases rest with
  | nil => exact uvNil1 b0 h1
  | cons b1 rt =>
    cases rt with
    | nil =>
      conv_lhs => rw [utf8Valid]
      rw [if_neg h1, if_neg h2]
    | cons b2 rt2 =>
      cases rt2 with
      | nil =>
        conv_lhs => rw [utf8Valid]
        rw [if_neg h1, if_neg h2, if_neg h3]
      | cons b3 rest4 =>
        conv_lhs => rw [utf8Valid]
        rw [if_neg h1, if_neg h2, if_neg h3, if_neg h4]

theorem utf8B2Lo_ge (b0 : Nat) : 128 ≤ utf8B2Lo b0 := by
  unfold utf8B2Lo
  split
  · omega
  · split <;> omega

theorem shape2_of_valid (b0 : Nat) (xs : List Nat) (h1 : ¬ b0 < 128)
    (h2 : (utf8SeqLen b0 == 2) = true) (hv : utf8Valid (b0 :: xs) = true) :
    ∃ b1 xs', xs = b1 :: xs' ∧ 128 ≤ b1 ∧ utf8Valid xs' = true := by
  cases xs with
  | nil => rw [uvNil1 b0 h1] at hv; cases hv
  | cons b1 xs' =>
    rw [uv2 b0 b1 xs' h1 h2] at hv
    simp only [Bool.and_eq_true, decide_eq_true_eq] at hv
    exact ⟨b1, xs', rfl, le_trans (utf8B2Lo_ge b0) hv.1.1, hv.2⟩

theorem shape3_of_valid (b0 : Nat) (xs : List Nat) (h1 : ¬ b0 < 128)
    (h2 : ¬ (utf8SeqLen b0 == 2) = true) (h3 : (utf8SeqLen b0 == 3) = true)
    (hv : utf8Valid (b0 :: xs) = true) :
    ∃ b1 b2 xs', xs = b1 :: b2 :: xs' ∧ 128 ≤ b1 ∧ 128 ≤ b2 ∧ utf8Valid xs' = true := by
  cases xs with
  | nil => rw [uvNil1 b0 h1] at hv; cases hv
  | cons b1 xt =>
    cases xt with
    | nil =>
      rw [utf8Valid, if_neg h1, if_neg h2] at hv
      cases hv
    | cons b2 xs' =>
      rw [uv3 b0 b1 b2 xs' h1 h2 h3] at hv
      simp only [Bool.and_eq_true, decide_eq_true_eq, utf8ContB] at hv
      exact ⟨b1, b2, xs', rfl, le_trans (utf8B2Lo_ge b0) hv.1.1.1, hv.1.2.1, hv.2⟩

theorem shape4_of_valid (b0 : Nat) (xs : List Nat) (h1 : ¬ b0 < 128)
    (h2 : ¬ (utf8SeqLen b0 == 2) = true) (h3 : ¬ (utf8SeqLen b0 == 3) = true)
    (h4 : (utf8SeqLen b0 == 4) = true) (hv : utf8Valid (b0 :: xs) = true) :
    ∃ b1 b2 b3 xs', xs = b1 :: b2 :: b3 :: xs' ∧ 128 ≤ b1 ∧ 128 ≤ b2 ∧ 128 ≤ b3 ∧
      utf8Valid xs' = true := by
  cases xs with
  | nil => rw [uvNil1 b0 h1] at hv; cases hv
  | cons b1 xt =>
    cases xt with
    | nil =>
      rw [utf8Valid, if_neg h1, if_neg h2] at hv
      cases hv
    | cons b2 xt2 =>
      cases xt2 with
      | nil =>
        rw [utf8Valid, if_neg h1, if_neg h2, if_neg h3] at hv
        cases hv
      | cons b3 xs' =>
        rw [uv4 b0 b1 b2 b3 xs' h1 h2 h3 h4] at hv
        simp only [Bool.and_eq_true, decide_eq_true_eq, utf8ContB] at hv
        exact ⟨b1, b2, b3, xs', rfl, le_trans (utf8B2Lo_ge b0) hv.1.1.1.1,
          hv.1.1.2.1, hv.1.2.1, hv.2⟩

theorem utf8Valid_append_aux : ∀ (n : Nat) (xs ys : List Nat), xs.length ≤ n →
    utf8Valid xs = true → utf8Valid ys = true → utf8Valid (xs ++ ys) = true := by
  intro n
  induction n with
  | zero =>
    intro xs ys hlen hx hy
    have hxe : xs = [] := List.length_eq_zero.mp (Nat.le_zero.mp hlen)
    subst hxe
    simpa using hy
  | succ n ih =>
    intro xs ys hlen hx hy
    cases xs with
    | nil => simpa using hy
    | cons b0 rest =>
      simp only [List.length_cons] at hlen
      by_cases hb : b0 < 128
      · rw [uvA b0 rest hb] at hx
        rw [List.cons_append, uvA b0 _ hb]
        exact ih rest ys (by omega) hx hy
      · by_cases h2 : (utf8SeqLen b0 == 2) = true
        · obtain ⟨b1, rest', rfl, -, -⟩ := shape2_of_valid b0 rest hb h2 hx
          rw [uv2 b0 b1 rest' hb h2, Bool.and_eq_true] at hx
          rw [List.cons_append, List.cons_append, uv2 b0 b1 _ hb h2, Bool.and_eq_true]
          refine ⟨hx.1, ih rest' ys ?_ hx.2 hy⟩
          simp only [List.length_cons] at hlen
          omega
        · by_cases h3 : (utf8SeqLen b0 == 3) = true
          · obtain ⟨b1, b2, rest', rfl, -, -, -⟩ := shape3_of_valid b0 rest hb h2 h3 hx
            rw [uv3 b0 b1 b2 rest' hb h2 h3, Bool.and_eq_true] at hx
            rw [List.cons_append, List.cons_append, List.cons_append,
              uv3 b0 b1 b2 _ hb h2 h3, Bool.and_eq_true]
            refine ⟨hx.1, ih rest' ys ?_ hx.2 hy⟩
            simp only [List.length_cons] at hlen
            omega
          · by_cases h4 : (utf8SeqLen b0 == 4) = true
            · obtain ⟨b1, b2, b3, rest', rfl, -, -, -, -⟩ :=
                shape4_of_valid b0 rest hb h2 h3 h4 hx
              rw [uv4 b0 b1 b2 b3 rest' hb h2 h3 h4, Bool.and_eq_true] at hx
              rw [List.cons_append, List.cons_append, List.cons_append, List.cons_append,
                uv4 b0 b1 b2 b3 _ hb h2 h3 h4, Bool.and_eq_true]
              refine ⟨hx.1, ih rest' ys ?_ hx.2 hy⟩
              simp only [List.length_cons] at hlen
              omega
            · rw [uvBadElse b0 rest hb h2 h3 h4] at hx
              cases hx

theorem utf8Valid_append (xs ys : List Nat) (hx : utf8Valid xs = true)
    (hy : utf8Valid ys = true) : utf8Valid (xs ++ ys) = true :=
  utf8Valid_append_aux xs.length xs ys (Nat.le_refl _) hx hy

theorem utf8Valid_of_append_ascii_aux : ∀ (n : Nat) (s u : List Nat), s.length ≤ n →
    u.all (fun b => decide (b < 128)) = true →
    utf8Valid (s ++ u) = true → utf8Valid s = true := by
  intro n
  induction n with
  | zero =>
    intro s u hlen hu hsu
    have hse : s = [] := List.length_eq_zero.mp (Nat.le_zero.mp hlen)
    subst hse
    rfl
  | succ n ih =>
    intro s u hlen hu hsu
    cases s with
    | nil => rfl
    | cons b0 rest =>
      simp only [List.length_cons] at hlen
      by_cases hb : b0 < 128
      · rw [List.cons_append, uvA b0 _ hb] at hsu
        rw [uvA b0 rest hb]
        exact ih rest u (by omega) hu hsu
      · by_cases h2 : (utf8SeqLen b0 == 2) = true
        · rw [List.cons_append] at hsu
          obtain ⟨b1, t', heq, hb1, -⟩ := shape2_of_valid b0 (rest ++ u) hb h2 hsu
          cases rest with
          | nil =>
            rw [List.nil_append] at heq
            have hmem : b1 ∈ u := by rw [heq]; exact List.mem_cons_self b1 t'
            have hlt := List.all_eq_true.mp hu b1 hmem
            simp only [decide_eq_true_eq] at hlt
            omega
          | cons r1 rest1 =>
            rw [List.cons_append] at hsu
            rw [uv2 b0 r1 _ hb h2, Bool.and_eq_true] at hsu
            rw [uv2 b0 r1 rest1 hb h2, Bool.and_eq_true]
            refine ⟨hsu.1, ih rest1 u ?_ hu hsu.2⟩
            simp only [List.length_cons] at hlen
            omega
        · by_cases h3 : (utf8SeqLen b0 == 3) = true
          · rw [List.cons_append] at hsu
            obtain ⟨b1, b2, t', heq, hb1, hb2, -⟩ :=
              shape3_of_valid b0 (rest ++ u) hb h2 h3 hsu
            cases rest with
            | nil =>
              rw [List.nil_append] at heq
              have hmem : b1 ∈ u := by rw [heq]; exact List.mem_cons_self b1 _
              have hlt := List.all_eq_true.mp hu b1 hmem
              simp only [decide_eq_true_eq] at hlt
              omega
            | cons r1 rest1 =>
              cases rest1 with
              | nil =>
                rw [List.cons_append, List.nil_append, List.cons_eq_cons] at heq
                obtain ⟨-, heq2⟩ := heq
                have hmem : b2 ∈ u := by rw [heq2]; exact List.mem_cons_self b2 _
                have hlt := List.all_eq_true.mp hu b2 hmem
                simp only [decide_eq_true_eq] at hlt
                omega
              | cons r2 rest2 =>
                rw [List.cons_append, List.cons_append] at hsu
                rw [uv3 b0 r1 r2 _ hb h2 h3, Bool.and_eq_true] at hsu
                rw [uv3 b0 r1 r2 rest2 hb h2 h3, Bool.and_eq_true]
                refine ⟨hsu.1, ih rest2 u ?_ hu hsu.2⟩
                simp only [List.length_cons] at hlen
                omega
          · by_cases h4 : (utf8SeqLen b0 == 4) = true
            · rw [List.cons_append] at hsu
              obtain ⟨b1, b2, b3, t', heq, hb1, hb2, hb3, -⟩ :=
                shape4_of_valid b0 (rest ++ u) hb h2 h3 h4 hsu
              cases rest with
              | nil =>
                rw [List.nil_append] at heq
                have hmem : b1 ∈ u := by rw [heq]; exact List.mem_cons_self b1 _
                have hlt := List.all_eq_true.mp hu b1 hmem
                simp only [decide_eq_true_eq] at hlt
                omega
              | cons r1 rest1 =>
                cases rest1 with
                | nil =>
                  rw [List.cons_append, List.nil_append, List.cons_eq_cons] at heq
                  obtain ⟨-, heq2⟩ := heq
                  have hmem : b2 ∈ u := by rw [heq2]; exact List.mem_cons_self b2 _
                  have hlt := List.all_eq_true.mp hu b2 hmem
                  simp only [decide_eq_true_eq] at hlt
                  omega
                | cons r2 rest2 =>
                  cases rest2 with
                  | nil =>
                    rw [List.cons_append, List.cons_append, List.nil_append,
                      List.cons_eq_cons, List.cons_eq_cons] at heq
                    obtain ⟨-, -, heq3⟩ := heq
                    have hmem : b3 ∈ u := by rw [heq3]; exact List.mem_cons_self b3 _
                    have hlt := List.all_eq_true.mp hu b3 hmem
                    simp only [decide_eq_true_eq] at hlt
                    omega
                  | cons r3 rest3 =>
                    rw [List.cons_append, List.cons_append, List.cons_append] at hsu
                    rw [uv4 b0 r1 r2 r3 _ hb h2 h3 h4, Bool.and_eq_true] at hsu
                    rw [uv4 b0 r1 r2 r3 rest3 hb h2 h3 h4, Bool.and_eq_true]
                    refine ⟨hsu.1, ih rest3 u ?_ hu hsu.2⟩
                    simp only [List.length_cons] at hlen
                    omega
            · rw [List.cons_append, uvBadElse b0 _ hb h2 h3 h4] at hsu
              cases hsu

theorem utf8Valid_of_append_ascii (s u : List Nat)
    (hu : u.all (fun b => decide (b < 128)) = true)
    (hsu : utf8Valid (s ++ u) = true) : utf8Valid s = true :=
  utf8Valid_of_append_ascii_aux s.length s u (Nat.le_refl _) hu hsu

theorem spaceByte_lt (b : Nat) (hb : isSpaceByte b = true) : b < 128 := by
  simp only [isSpaceByte, Bool.or_eq_true, beq_iff_eq] at hb
  obtain h | h | h | h | h | h := hb <;> omega

theorem dropWhile_space_valid (s : List Nat) (hv : utf8Valid s = true) :
    utf8Valid (s.dropWhile isSpaceByte) = true := by
  induction s with
  | nil => exact hv
  | cons b rest ih =>
    rw [List.dropWhile_cons]
    by_cases hb : isSpaceByte b = true
    · rw [if_pos hb]
      apply ih
      rw [uvA b rest (spaceByte_lt b hb)] at hv
      exact hv
    · rw [if_neg hb]
      exact hv

theorem trimBytes_valid (s : List Nat) (hv : utf8Valid s = true) :
    utf8Valid (trimBytes s) = true := by
  have h1 : utf8Valid (s.dropWhile isSpaceByte) = true := dropWhile_space_valid s hv
  have hsplit : (s.dropWhile isSpaceByte).reverse.takeWhile isSpaceByte ++
      (s.dropWhile isSpaceByte).reverse.dropWhile isSpaceByte =
      (s.dropWhile isSpaceByte).reverse :=
    List.takeWhile_append_dropWhile isSpaceByte (s.dropWhile isSpaceByte).reverse
  have hdec : s.dropWhile isSpaceByte =
      ((s.dropWhile isSpaceByte).reverse.dropWhile isSpaceByte).reverse ++
      ((s.dropWhile isSpaceByte).reverse.takeWhile isSpaceByte).reverse := by
    conv_lhs => rw [← List.reverse_reverse (s.dropWhile isSpaceByte), ← hsplit]
    rw [List.reverse_append]
  rw [hdec] at h1
  refine utf8Valid_of_append_ascii _ _ ?_ h1
  rw [List.all_eq_true]
  intro b hbmem
  rw [List.mem_reverse] at hbmem
  have := List.mem_takeWhile_imp hbmem
  simpa using spaceByte_lt b this

theorem trimPrefixDotB_valid (s : List Nat) (hv : utf8Valid s = true) :
    utf8Valid (trimPrefixDotB s) = true := by
  unfold trimPrefixDotB
  split
  · next _ rest =>
    rw [uvA 46 rest (by omega)] at hv
    exact hv
  · exact hv

theorem mem_specialsB_lt : ∀ x ∈ regexSpecialsB, x < 128 := by decide

theorem utf8Valid_pair (b0 b1 : Nat) (h1 : ¬ b0 < 128)
    (h2 : (utf8SeqLen b0 == 2) = true)
    (hr : (utf8B2Lo b0 ≤ b1 && b1 ≤ utf8B2Hi b0) = true) :
    utf8Valid [b0, b1] = true := by
  rw [uv2 b0 b1 [] h1 h2, hr, Bool.true_and]
  rfl

theorem utf8Valid_triple (b0 b1 b2 : Nat) (h1 : ¬ b0 < 128)
    (h2 : ¬ (utf8SeqLen b0 == 2) = true) (h3 : (utf8SeqLen b0 == 3) = true)
    (hr : ((utf8B2Lo b0 ≤ b1 && b1 ≤ utf8B2Hi b0) && utf8ContB b2) = true) :
    utf8Valid [b0, b1, b2] = true := by
  rw [uv3 b0 b1 b2 [] h1 h2 h3]
  rw [show ((utf8B2Lo b0 ≤ b1 && b1 ≤ utf8B2Hi b0) && utf8ContB b2 && utf8Valid []) =
    (((utf8B2Lo b0 ≤ b1 && b1 ≤ utf8B2Hi b0) && utf8ContB b2) && utf8Valid []) from by
      rw [Bool.and_assoc], hr, Bool.true_and]
  rfl

theorem utf8Valid_quad (b0 b1 b2 b3 : Nat) (h1 : ¬ b0 < 128)
    (h2 : ¬ (utf8SeqLen b0 == 2) = true) (h3 : ¬ (utf8SeqLen b0 == 3) = true)
    (h4 : (utf8SeqLen b0 == 4) = true)
    (hr : ((utf8B2Lo b0 ≤ b1 && b1 ≤ utf8B2Hi b0) && utf8ContB b2 && utf8ContB b3) = true) :
    utf8Valid [b0, b1, b2, b3] = true := by
  rw [uv4 b0 b1 b2 b3 [] h1 h2 h3 h4]
  rw [show ((utf8B2Lo b0 ≤ b1 && b1 ≤ utf8B2Hi b0) && utf8ContB b2 && utf8ContB b3 &&
      utf8Valid []) =
    (((utf8B2Lo b0 ≤ b1 && b1 ≤ utf8B2Hi b0) && utf8ContB b2 && utf8ContB b3) &&
      utf8Valid []) from by rw [Bool.and_assoc, Bool.and_assoc], hr, Bool.true_and]
  rfl

theorem splitByteAux_nil (sep : Nat) (acc : List Nat) :
    splitByteAux sep acc [] = [acc.reverse] := rfl

theorem splitByteAux_cons (sep : Nat) (acc : List Nat) (b : Nat) (rest : List Nat) :
    splitByteAux sep acc (b :: rest) =
      if b == sep then acc.reverse :: splitByteAux sep [] rest
      else splitByteAux sep (b :: acc) rest := rfl

theorem uvSingle (b0 : Nat) (hb : b0 < 128) : utf8Valid [b0] = true := by
  rw [uvA b0 [] hb]
  rfl

theorem splitByteAux_valid_aux : ∀ n (s acc : List Nat), s.length ≤ n →
    utf8Valid s = true → utf8Valid acc.reverse = true →
    ∀ part ∈ splitByteAux 44 acc s, utf8Valid part = true := by
  intro n
  induction n with
  | zero =>
    intro s acc hlen hs hacc part hmem
    have hnil : s = [] := List.length_eq_zero.mp (Nat.le_zero.mp hlen)
    subst hnil
    rw [splitByteAux_nil] at hmem
    rcases List.mem_singleton.mp hmem with rfl
    exact hacc
  | succ n ih =>
    intro s acc hlen hs hacc part hmem
    cases s with
    | nil =>
      rw [splitByteAux_nil] at hmem
      rcases List.mem_singleton.mp hmem with rfl
      exact hacc
    | cons b0 tail =>
      simp only [List.length_cons, Nat.succ_le_succ_iff] at hlen
      by_cases hb0 : b0 < 128
      · rw [uvA b0 tail hb0] at hs
        rw [splitByteAux_cons] at hmem
        by_cases hsep : (b0 == 44) = true
        · rw [if_pos hsep] at hmem
          rcases List.mem_cons.mp hmem with rfl | hmem2
          · exact hacc
          · exact ih tail [] hlen hs rfl part hmem2
        · rw [if_neg hsep] at hmem
          refine ih tail (b0 :: acc) hlen hs ?_ part hmem
          rw [List.reverse_cons]
          exact utf8Valid_append acc.reverse [b0] hacc (uvSingle b0 hb0)
      · by_cases h2 : (utf8SeqLen b0 == 2) = true
        · cases tail with
          | nil => rw [uvNil1 b0 hb0] at hs; cases hs
          | cons b1 rest =>
            rw [uv2 b0 b1 rest hb0 h2] at hs
            rw [Bool.and_eq_true] at hs
            obtain ⟨hb, hrest⟩ := hs
            have hb1 : 128 ≤ b1 := by
              simp only [Bool.and_eq_true, decide_eq_true_eq] at hb
              exact le_trans (utf8B2Lo_ge b0) hb.1
            rw [splitByteAux_cons, if_neg (by simp only [beq_iff_eq]; omega),
              splitByteAux_cons, if_neg (by simp only [beq_iff_eq]; omega)] at hmem
            simp only [List.length_cons] at hlen
            refine ih rest (b1 :: b0 :: acc) (by omega) hrest ?_ part hmem
            rw [List.reverse_cons, List.reverse_cons, List.append_assoc]
            exact utf8Valid_append acc.reverse [b0, b1] hacc
              (utf8Valid_pair b0 b1 hb0 h2 hb)
        · by_cases h3 : (utf8SeqLen b0 == 3) = true
          · obtain ⟨b1, b2, rest, heq, hb1, hb2, hrest⟩ :=
              shape3_of_valid b0 tail hb0 h2 h3 hs
            subst heq
            have hr3 : ((utf8B2Lo b0 ≤ b1 && b1 ≤ utf8B2Hi b0) && utf8ContB b2) = true := by
              rw [uv3 b0 b1 b2 rest hb0 h2 h3] at hs
              rw [show ((utf8B2Lo b0 ≤ b1 && b1 ≤ utf8B2Hi b0) && utf8ContB b2 &&
                  utf8Valid rest) =
                (((utf8B2Lo b0 ≤ b1 && b1 ≤ utf8B2Hi b0) && utf8ContB b2) &&
                  utf8Valid rest) from by rw [Bool.and_assoc]] at hs
              rw [Bool.and_eq_true] at hs
              exact hs.1
            rw [splitByteAux_cons, if_neg (by simp only [beq_iff_eq]; omega),
              splitByteAux_cons, if_neg (by simp only [beq_iff_eq]; omega),
              splitByteAux_cons, if_neg (by simp only [beq_iff_eq]; omega)] at hmem
            simp only [List.length_cons] at hlen
            refine ih rest (b2 :: b1 :: b0 :: acc) (by omega) hrest ?_ part hmem
            rw [List.reverse_cons, List.reverse_cons, List.reverse_cons,
              List.append_assoc, List.append_assoc, ← List.append_assoc [b0]]
            exact utf8Valid_append acc.reverse ([b0] ++ [b1] ++ [b2]) hacc
              (utf8Valid_triple b0 b1 b2 hb0 h2 h3 hr3)
          · by_cases h4 : (utf8SeqLen b0 == 4) = true
            · obtain ⟨b1, b2, b3, rest, heq, hb1, hb2, hb3, hrest⟩ :=
                shape4_of_valid b0 tail hb0 h2 h3 h4 hs
              subst heq
              have hr4 : ((utf8B2Lo b0 ≤ b1 && b1 ≤ utf8B2Hi b0) && utf8ContB b2 &&
                  utf8ContB b3) = true := by
                rw [uv4 b0 b1 b2 b3 rest hb0 h2 h3 h4] at hs
                rw [show ((utf8B2Lo b0 ≤ b1 && b1 ≤ utf8B2Hi b0) && utf8ContB b2 &&
                    utf8ContB b3 && utf8Valid rest) =
                  (((utf8B2Lo b0 ≤ b1 && b1 ≤ utf8B2Hi b0) && utf8ContB b2 &&
                    utf8ContB b3) && utf8Valid rest) from by
                    rw [Bool.and_assoc, Bool.and_assoc, Bool.and_assoc]] at hs
                rw [Bool.and_eq_true] at hs
                exact hs.1
              rw [splitByteAux_cons, if_neg (by simp only [beq_iff_eq]; omega),
                splitByteAux_cons, if_neg (by simp only [beq_iff_eq]; omega),
                splitByteAux_cons, if_neg (by simp only [beq_iff_eq]; omega),
                splitByteAux_cons, if_neg (by simp only [beq_iff_eq]; omega)] at hmem
              simp only [List.length_cons] at hlen
              refine ih rest (b3 :: b2 :: b1 :: b0 :: acc) (by omega) hrest ?_ part hmem
              rw [List.reverse_cons, List.reverse_cons, List.reverse_cons,
                List.reverse_cons, List.append_assoc, List.append_assoc,
                List.append_assoc, ← List.append_assoc [b0], ← List.append_assoc ([b0] ++ [b1])]
              exact utf8Valid_append acc.reverse ([b0] ++ [b1] ++ [b2] ++ [b3]) hacc
                (utf8Valid_quad b0 b1 b2 b3 hb0 h2 h3 h4 hr4)
            · rw [uvBadElse b0 tail hb0 h2 h3 h4] at hs
              cases hs

theorem splitCommaB_valid (s : List Nat) (hv : utf8Valid s = true) :
    ∀ part ∈ splitCommaB s, utf8Valid part = true := by
  intro part hmem
  exact splitByteAux_valid_aux s.length s [] (Nat.le_refl _) hv rfl part hmem

theorem not_mem_specialsB (b : Nat) (hb : ¬ b < 128) : b ∉ regexSpecialsB :=
  fun hmem => hb (mem_specialsB_lt b hmem)

theorem quoteMetaB_cons (b : Nat) (rest : List Nat) :
    quoteMetaB (b :: rest) =
      if b ∈ regexSpecialsB then 92 :: b :: quoteMetaB rest
      else b :: quoteMetaB rest := rfl

theorem quoteMetaB_valid_aux : ∀ n (s : List Nat), s.length ≤ n →
    utf8Valid s = true → utf8Valid (quoteMetaB s) = true := by
  intro n
  induction n with
  | zero =>
    intro s hlen _
    have hnil : s = [] := List.length_eq_zero.mp (Nat.le_zero.mp hlen)
    subst hnil
    rfl
  | succ n ih =>
    intro s hlen hs
    cases s with
    | nil => rfl
    | cons b0 tail =>
      simp only [List.length_cons, Nat.succ_le_succ_iff] at hlen
      by_cases hb0 : b0 < 128
      · rw [uvA b0 tail hb0] at hs
        rw [quoteMetaB_cons]
        by_cases hmem : b0 ∈ regexSpecialsB
        · rw [if_pos hmem, uvA 92 _ (by omega), uvA b0 _ hb0]
          exact ih tail hlen hs
        · rw [if_neg hmem, uvA b0 _ hb0]
          exact ih tail hlen hs
      · by_cases h2 : (utf8SeqLen b0 == 2) = true
        · cases tail with
          | nil => rw [uvNil1 b0 hb0] at hs; cases hs
          | cons b1 rest =>
            rw [uv2 b0 b1 rest hb0 h2, Bool.and_eq_true] at hs
            obtain ⟨hb, hrest⟩ := hs
            have hb1 : 128 ≤ b1 := by
              simp only [Bool.and_eq_true, decide_eq_true_eq] at hb
              exact le_trans (utf8B2Lo_ge b0) hb.1
            rw [quoteMetaB_cons, if_neg (not_mem_specialsB b0 hb0),
              quoteMetaB_cons, if_neg (not_mem_specialsB b1 (by omega)),
              uv2 b0 b1 (quoteMetaB rest) hb0 h2, hb, Bool.true_and]
            simp only [List.length_cons] at hlen
            exact ih rest (by omega) hrest
        · by_cases h3 : (utf8SeqLen b0 == 3) = true
          · obtain ⟨b1, b2, rest, heq, hb1, hb2, hrest⟩ :=
              shape3_of_valid b0 tail hb0 h2 h3 hs
            subst heq
            have hr3 : ((utf8B2Lo b0 ≤ b1 && b1 ≤ utf8B2Hi b0) && utf8ContB b2) = true := by
              rw [uv3 b0 b1 b2 rest hb0 h2 h3] at hs
              rw [show ((utf8B2Lo b0 ≤ b1 && b1 ≤ utf8B2Hi b0) && utf8ContB b2 &&
                  utf8Valid rest) =
                (((utf8B2Lo b0 ≤ b1 && b1 ≤ utf8B2Hi b0) && utf8ContB b2) &&
                  utf8Valid rest) from by rw [Bool.and_assoc], Bool.and_eq_true] at hs
              exact hs.1
            rw [quoteMetaB_cons, if_neg (not_mem_specialsB b0 hb0),
              quoteMetaB_cons, if_neg (not_mem_specialsB b1 (by omega)),
              quoteMetaB_cons, if_neg (not_mem_specialsB b2 (by omega)),
              uv3 b0 b1 b2 (quoteMetaB rest) hb0 h2 h3]
            rw [show ((utf8B2Lo b0 ≤ b1 && b1 ≤ utf8B2Hi b0) && utf8ContB b2 &&
                utf8Valid (quoteMetaB rest)) =
              (((utf8B2Lo b0 ≤ b1 && b1 ≤ utf8B2Hi b0) && utf8ContB b2) &&
                utf8Valid (quoteMetaB rest)) from by rw [Bool.and_assoc], hr3,
              Bool.true_and]
            simp only [List.length_cons] at hlen
            exact ih rest (by omega) hrest
          · by_cases h4 : (utf8SeqLen b0 == 4) = true
            · obtain ⟨b1, b2, b3, rest, heq, hb1, hb2, hb3, hrest⟩ :=
                shape4_of_valid b0 tail hb0 h2 h3 h4 hs
              subst heq
              have hr4 : ((utf8B2Lo b0 ≤ b1 && b1 ≤ utf8B2Hi b0) && utf8ContB b2 &&
                  utf8ContB b3) = true := by
                rw [uv4 b0 b1 b2 b3 rest hb0 h2 h3 h4] at hs
                rw [show ((utf8B2Lo b0 ≤ b1 && b1 ≤ utf8B2Hi b0) && utf8ContB b2 &&
                    utf8ContB b3 && utf8Valid rest) =
                  (((utf8B2Lo b0 ≤ b1 && b1 ≤ utf8B2Hi b0) && utf8ContB b2 &&
                    utf8ContB b3) && utf8Valid rest) from by
                    rw [Bool.and_assoc, Bool.and_assoc, Bool.and_assoc],
                  Bool.and_eq_true] at hs
                exact hs.1
              rw [quoteMetaB_cons, if_neg (not_mem_specialsB b0 hb0),
                quoteMetaB_cons, if_neg (not_mem_specialsB b1 (by omega)),
                quoteMetaB_cons, if_neg (not_mem_specialsB b2 (by omega)),
                quoteMetaB_cons, if_neg (not_mem_specialsB b3 (by omega)),
                uv4 b0 b1 b2 b3 (quoteMetaB rest) hb0 h2 h3 h4]
              rw [show ((utf8B2Lo b0 ≤ b1 && b1 ≤ utf8B2Hi b0) && utf8ContB b2 &&
                  utf8ContB b3 && utf8Valid (quoteMetaB rest)) =
                (((utf8B2Lo b0 ≤ b1 && b1 ≤ utf8B2Hi b0) && utf8ContB b2 &&
                  utf8ContB b3) && utf8Valid (quoteMetaB rest)) from by
                  rw [Bool.and_assoc, Bool.and_assoc, Bool.and_assoc], hr4,
                Bool.true_and]
              simp only [List.length_cons] at hlen
              exact ih rest (by omega) hrest
            · rw [uvBadElse b0 tail hb0 h2 h3 h4] at hs
              cases hs

theorem quoteMetaB_valid (s : List Nat) (hv : utf8Valid s = true) :
    utf8Valid (quoteMetaB s) = true :=
  quoteMetaB_valid_aux s.length s (Nat.le_refl _) hv

theorem extAlternationB_valid (parts : List (List Nat))
    (hp : ∀ p ∈ parts, utf8Valid p = true) :
    utf8Valid (extAlternationB parts) = true := by
  induction parts with
  | nil => rfl
  | cons p ps ih =>
    cases ps with
    | nil => exact hp p (List.mem_singleton.mpr rfl)
    | cons q qs =>
      rw [show extAlternationB (p :: q :: qs) = p ++ 124 :: extAlternationB (q :: qs)
        from rfl]
      refine utf8Valid_append p (124 :: extAlternationB (q :: qs))
        (hp p (List.mem_cons_self p _)) ?_
      rw [uvA 124 _ (by omega)]
      exact ih (fun r hr => hp r (List.mem_cons_of_mem p hr))

theorem extPatternBytes_valid (parts : List (List Nat))
    (hp : ∀ p ∈ parts, utf8Valid p = true) :
    utf8Valid (extPatternBytes parts) = true := by
  rw [extPatternBytes]
  exact utf8Valid_append _ [41, 36]
    (utf8Valid_append [40, 63, 105, 41, 92, 46, 40] (extAlternationB parts)
      (by decide) (extAlternationB_valid parts hp)) (by decide)

theorem extTokensB_valid (csv : List Nat) (hv : utf8Valid csv = true) :
    ∀ t ∈ extTokensB csv, utf8Valid t = true := by
  intro t ht
  simp only [extTokensB, List.mem_map, List.mem_filter] at ht
  obtain ⟨p, ⟨⟨q, hq, rfl⟩, _⟩, rfl⟩ := ht
  exact trimPrefixDotB_valid _ (trimBytes_valid q (splitCommaB_valid csv hv q hq))

theorem scanReB_plain (b : Nat) (hb : b ∉ regexSpecialsB) (rest : List Nat) (d : Nat) :
    scanReB (b :: rest) d = scanReB rest d := by
  have hsub : ∀ x ∈ reBadB, x ∈ regexSpecialsB := by decide
  have h1 : b ≠ 92 := fun h => hb (by rw [h]; decide)
  have h2 : b ≠ 40 := fun h => hb (by rw [h]; decide)
  have h3 : b ≠ 41 := fun h => hb (by rw [h]; decide)
  have h4 : b ∉ reBadB := fun h => hb (hsub b h)
  rw [scanReB.eq_def]
  split <;> rename_i heq
  · exact absurd heq (by simp)
  · rw [List.cons_eq_cons] at heq
    exact absurd heq.1 h1
  · rw [List.cons_eq_cons] at heq
    exact absurd heq.1 h1
  · rw [List.cons_eq_cons] at heq
    exact absurd heq.1 h2
  · rw [List.cons_eq_cons] at heq
    exact absurd heq.1 h2
  · rw [List.cons_eq_cons] at heq
    exact absurd heq.1 h3
  · rw [List.cons_eq_cons] at heq
    obtain ⟨rfl, rfl⟩ := heq
    rw [if_neg h4]

theorem scanReB_esc (b : Nat) (xs : List Nat) (d : Nat) :
    scanReB (92 :: b :: xs) d = if b ∈ regexSpecialsB then scanReB xs d else false := rfl

theorem scanReB_quoteMeta (s : List Nat) (rest : List Nat) (d : Nat) :
    scanReB (quoteMetaB s ++ rest) d = scanReB rest d := by
  induction s generalizing rest d with
  | nil => rfl
  | cons b s ih =>
    by_cases hb : b ∈ regexSpecialsB
    · rw [quoteMetaB_cons, if_pos hb]
      rw [List.cons_append, List.cons_append, scanReB_esc, if_pos hb, ih]
    · rw [quoteMetaB_cons, if_neg hb, List.cons_append, scanReB_plain b hb, ih]

theorem scanReB_alternation (parts : List (List Nat)) (rest : List Nat) (d : Nat) :
    scanReB (extAlternationB (parts.map quoteMetaB) ++ rest) d = scanReB rest d := by
  induction parts generalizing rest d with
  | nil => rfl
  | cons p ps ih =>
    cases ps with
    | nil => simp only [List.map, extAlternationB, scanReB_quoteMeta]
    | cons q qs =>
      have hpipe : ∀ (xs : List Nat) (dd : Nat), scanReB (124 :: xs) dd = scanReB xs dd :=
        fun xs dd => rfl
      simp only [List.map, extAlternationB, List.append_assoc, List.cons_append]
      rw [scanReB_quoteMeta, hpipe]
      simpa using ih rest d

theorem scanReB_open (x : Nat) (hx : x ≠ 63) (xs : List Nat) (d : Nat) :
    scanReB (40 :: x :: xs) d = scanReB (x :: xs) (d + 1) := by
  rw [scanReB.eq_def]
  split <;> rename_i heq
  · exact absurd heq (by simp)
  · exact absurd heq (by simp)
  · rw [List.cons_eq_cons] at heq
    exact absurd heq.1 (by decide)
  · rw [List.cons_eq_cons, List.cons_eq_cons] at heq
    exact absurd heq.2.1 hx
  · rw [List.cons_eq_cons] at heq
    rw [← heq.2]
  · rw [List.cons_eq_cons] at heq
    exact absurd heq.1 (by decide)
  · rw [List.cons_eq_cons] at heq
    rename_i hopen hclose
    exact absurd heq.1.symm hopen

theorem qmB_append_head_ne63 (p : List Nat) (rest : List Nat)
    (hrest : ∀ y ys, rest = y :: ys → y ≠ 63) :
    ∀ x xs, quoteMetaB p ++ rest = x :: xs → x ≠ 63 := by
  cases p with
  | nil => exact fun x xs h => hrest x xs h
  | cons b bs =>
    intro x xs h
    by_cases hb : b ∈ regexSpecialsB
    · rw [quoteMetaB_cons, if_pos hb, List.cons_append, List.cons_eq_cons] at h
      rw [← h.1]; decide
    · rw [quoteMetaB_cons, if_neg hb, List.cons_append, List.cons_eq_cons] at h
      intro hx
      exact hb (by rw [h.1, hx]; decide)

theorem altB_head_ne63 (parts : List (List Nat)) :
    ∀ x xs, extAlternationB (parts.map quoteMetaB) ++ [41, 36] = x :: xs → x ≠ 63 := by
  cases parts with
  | nil =>
    intro x xs h
    rw [List.map_nil, show extAlternationB [] = [] from rfl, List.nil_append,
      List.cons_eq_cons] at h
    rw [← h.1]; decide
  | cons p ps =>
    cases ps with
    | nil =>
      intro x xs h
      rw [List.map, List.map_nil,
        show extAlternationB [quoteMetaB p] = quoteMetaB p from rfl] at h
      exact qmB_append_head_ne63 p [41, 36]
        (fun y ys hy => by rw [← (List.cons_eq_cons.mp hy).1]; decide) x xs h
    | cons q qs =>
      intro x xs h
      rw [List.map, List.map,
        show extAlternationB (quoteMetaB p :: quoteMetaB q :: List.map quoteMetaB qs) =
          quoteMetaB p ++ 124 :: extAlternationB (quoteMetaB q :: List.map quoteMetaB qs)
          from rfl,
        List.append_assoc, List.cons_append] at h
      exact qmB_append_head_ne63 p _
        (fun y ys hy => by rw [← (List.cons_eq_cons.mp hy).1]; decide) x xs h

theorem scanReB_extPattern (parts : List (List Nat)) :
    scanReB (extPatternBytes (parts.map quoteMetaB)) 0 = true := by
  unfold extPatternBytes
  have e0 : [40, 63, 105, 41, 92, 46, 40] ++
      extAlternationB (List.map quoteMetaB parts) ++ [41, 36] =
      40 :: 63 :: 105 :: 41 :: 92 :: 46 :: 40 ::
        (extAlternationB (List.map quoteMetaB parts) ++ [41, 36]) := by
    simp
  rw [e0]
  rw [show ∀ (l : List Nat) (d : Nat),
      scanReB (40 :: 63 :: 105 :: 41 :: l) d = scanReB l d from fun l d => rfl]
  rw [show ∀ (l : List Nat) (d : Nat), scanReB (92 :: 46 :: l) d = scanReB l d from
      fun l d => by rw [scanReB_esc, if_pos (by decide)]]
  obtain ⟨x, xs, hxx⟩ := List.exists_cons_of_ne_nil
    (show extAlternationB (List.map quoteMetaB parts) ++ [41, 36] ≠ [] from by simp)
  rw [hxx, scanReB_open x (altB_head_ne63 parts x xs hxx) xs 0, ← hxx]
  rw [scanReB_alternation]
  rfl

theorem compileExtRegexB_err_false (includeCSV excludeCSV : List Nat)
    (hi : utf8Valid includeCSV = true) (he : utf8Valid excludeCSV = true) :
    (compileExtRegexB includeCSV excludeCSV).compileErr = false := by
  unfold compileExtRegexB
  dsimp only
  split
  all_goals
    split
    · rfl
    · rw [if_pos ?_]
      rw [Bool.and_eq_true]
      constructor
      · refine extPatternBytes_valid _ ?_
        intro p hp
        rw [List.mem_map] at hp
        obtain ⟨t, ht, rfl⟩ := hp
        first
        | exact quoteMetaB_valid t (extTokensB_valid includeCSV hi t ht)
        | exact quoteMetaB_valid t (extTokensB_valid excludeCSV he t ht)
      · exact scanReB_extPattern _

/-- C10x: counterexample to the claim as stated — the exclude CSV
consisting of the single byte `0xFF` is not valid UTF-8, survives
`regexp.QuoteMeta` unescaped, and makes `regexp.Compile` fail (Go's
`ErrInvalidUTF8`), so `CompileExtRegex` returns a non-nil error and the
fatal exit branch in `main` is reached. -/
theorem compileExtRegex_utf8_counterexample :
    (compileExtRegexB [] [255]).compileErr = true ∧ utf8Valid [255] = false := by
  constructor
  · decide
  · decide

/-- C10: amended — for every pair of include/exclude extension CSV flag
values whose bytes are valid UTF-8 (the only pairs expressible as Go
string literals or normal command-line text), `CompileExtRegex` returns a
nil error: each token is `regexp.QuoteMeta`-escaped before being joined
into `(?i)\.(...)$`, and the assembled pattern is then both valid UTF-8
and syntactically well formed, so compilation cannot fail and the fatal
regex-compilation-failure exit branch in `main` is not reached; the
modelled run exits with code zero. The claim as stated, quantifying over
arbitrary flag bytes, is refuted by the invalid-UTF-8 counterexample. -/
theorem compileExtRegex_valid_utf8_spec (includeCSV excludeCSV : List Nat)
    (hi : utf8Valid includeCSV = true) (he : utf8Valid excludeCSV = true)
    (includeS excludeS : String)
    (countBody : List String) (pf : Nat → Nat → Except Unit Response) (fl : Flags) :
    (compileExtRegexB includeCSV excludeCSV).compileErr = false ∧
    (runModel countBody includeS excludeS pf fl).1 = 0 := by
  refine ⟨compileExtRegexB_err_false includeCSV excludeCSV hi he, ?_⟩
  unfold runModel
  dsimp only
  rw [compileExtRegex_err_false]
  rw [if_neg (by simp)]
  split <;> rfl

theorem compileExtRegex_valid_utf8_spec_witness :
    utf8Valid [] = true ∧ utf8Valid [106, 115] = true ∧
    (compileExtRegexB [] [106, 115]).compileErr = false ∧
    (runModel ["1"] "" "js" (fun _ _ => Except.ok ⟨200, []⟩) dfltFlags).1 = 0 := by
  refine ⟨by decide, by decide, ?_⟩
  exact compileExtRegex_valid_utf8_spec [] [106, 115] (by decide) (by decide)
    "" "js" ["1"] (fun _ _ => Except.ok ⟨200, []⟩) dfltFlags

/-! ### Blank page-count body (claim C9) -/

theorem firstNonBlank_all_blank (body : List String)
    (h : body.all (fun l => trimS l == "") = true) : firstNonBlank body = "" := by
  induction body with
  | nil => rfl
  | cons l rest ih =>
    rw [List.all_cons, Bool.and_eq_true] at h
    have hl : trimS l = "" := by simpa using h.1
    simp [firstNonBlank, hl, ih h.2]

/-- C9: when every line of the page-count response body is blank, the run
treats the page count as zero and terminates successfully: no pipeline
work is started, zero output lines are produced, and the exit code is
zero. -/
theorem blank_count_run (countBody : List String) (includeCSV excludeCSV : String)
    (pf : Nat → Nat → Except Unit Response) (fl : Flags)
    (h : countBody.all (fun l => trimS l == "") = true) :
    pagesFromBody countBody = 0 ∧
    runModel countBody includeCSV excludeCSV pf fl = (0, []) := by
  have hp : pagesFromBody countBody = 0 := by
    rw [pagesFromBody, firstNonBlank_all_blank countBody h]
    rfl
  refine ⟨hp, ?_⟩
  unfold runModel
  dsimp only
  rw [compileExtRegex_err_false, if_neg (by simp), hp, if_pos rfl]

theorem blank_count_run_witness :
    pagesFromBody ["", "  "] = 0 ∧
    runModel ["", "  "] "" "" (fun _ _ => Except.error ()) dfltFlags = (0, []) :=
  blank_count_run ["", "  "] "" "" (fun _ _ => Except.error ()) dfltFlags (by decide)

/-! ### Query-keys mode (claim C6) -/

theorem unescapeQuery_ne_nil (l : List Char) (hl : l ≠ []) (r : List Char)
    (h : unescapeQuery l = some r) : r ≠ [] := by
  unfold unescapeQuery at h
  split at h
  · exact absurd rfl hl
  · split at h
    · obtain ⟨r', -, rfl⟩ := Option.map_eq_some'.mp h
      simp
    · cases h
  · cases h
  · obtain ⟨r', -, rfl⟩ := Option.map_eq_some'.mp h
    simp
  · obtain ⟨r', -, rfl⟩ := Option.map_eq_some'.mp h
    simp

theorem queryKeysOf_ne_empty (rq : String) :
    (queryKeysOf rq).all (fun k => !(k == "")) = true := by
  rw [queryKeysOf, List.all_eq_true]
  intro k hk
  simp only [List.mem_map] at hk
  obtain ⟨kl, hkl, rfl⟩ := hk
  rw [List.mem_filterMap] at hkl
  obtain ⟨p, -, hp⟩ := hkl
  unfold keyOfPair at hp
  dsimp only at hp
  split at hp
  · cases hp
  · rename_i hne
    split at hp <;> rename_i hun
    · injection hp with hp'
      have hk : _ ≠ ([] : List Char) := hp' ▸ unescapeQuery_ne_nil _ hne _ hun
      simpa [String.ext_iff] using hk
    · injection hp with hp'
      subst hp'
      simpa [String.ext_iff] using hne

/-- C6: in query-keys-only mode the worker splits the raw query on `&` or
`;`, emits the (percent-decoded) portion before `=` of each segment as its
own line, and skips segments with an empty key: on `a=1&b=2&a=3` it emits
`a`, `b`, `a`, which the downstream sink deduplicates to `a`, `b` in
first-seen order; segments split by `;`, empty segments and empty keys are
skipped; and no emitted key is ever the empty string. -/
theorem query_keys_spec :
    queryKeysOf "a=1&b=2&a=3" = ["a", "b", "a"] ∧
    processLine okqFlags none false "http://h/p?a=1&b=2&a=3" = ["a", "b", "a"] ∧
    sinkRun ["a", "b", "a"] = ["a", "b"] ∧
    queryKeysOf "a=1;=2&&b" = ["a", "b"] ∧
    ∀ rq : String, (queryKeysOf rq).all (fun k => !(k == "")) = true :=
  ⟨by decide, by decide, by decide, by decide, queryKeysOf_ne_empty⟩

/-! ### Parse failure in the query-dependent modes (claim C7) -/

/-- Counterexample to C7 as stated: `:foo` fails URL parsing
(missing protocol scheme), yet in strip-query mode the worker does not
emit nothing for it — the `*noQuery && err == nil` guard fails and control
falls through to the default branch, which emits the raw line. -/
theorem parse_fail_counterexample :
    urlParse (trimS ":foo") = none ∧
    ¬ (processLine nqFlags none false ":foo" = []) := by
  constructor
  · decide
  · decide

/-- C7 (amended): for a record whose text fails URL parsing there is no
crash; query-only and query-keys-only modes emit nothing, but strip-query
mode falls through to the default branch and emits the trimmed raw line
unchanged. -/
theorem parse_fail_spec (ext : Option (List String)) (im : Bool) (line : String)
    (h : urlParse (trimS line) = none) :
    processLine oqFlags ext im line = [] ∧
    processLine okqFlags ext im line = [] ∧
    processLine nqFlags none im line = [trimS line] := by
  have hne : ¬ trimS line = "" := by
    intro hl
    rw [hl] at h
    exact absurd h (by decide)
  refine ⟨?_, ?_, ?_⟩
  · simp only [processLine, h, if_neg hne, oqFlags]
    split <;> simp
  · simp only [processLine, h, if_neg hne, okqFlags]
    split <;> simp
  · simp [processLine, h, hne, nqFlags]

theorem parse_fail_spec_witness :
    processLine oqFlags none false ":bar" = [] ∧
    processLine okqFlags none false ":bar" = [] ∧
    processLine nqFlags none false ":bar" = [trimS ":bar"] :=
  parse_fail_spec none false ":bar" (by decide)

/-! ### Extension filtering (claim C8) -/

/-- C8: extension filtering matches path suffixes case-insensitively.
With the exclude list `js,png`, any record whose path ends (in any letter
case) in `.js` is dropped; with the include list `json`, a record whose
path ends in `.json` is kept (it survives to the default emit) and every
record not matching the include list is dropped. The two filter
configurations are exactly what `CompileExtRegex` produces for those CSV
inputs. -/
theorem ext_filter_spec (line : String) :
    (strEndsWith (lowerStr (recordPath (trimS line))) ".js" = true →
      processLine dfltFlags (some ["js", "png"]) false line = []) ∧
    (strEndsWith (lowerStr (recordPath (trimS line))) ".json" = true →
      processLine dfltFlags (some ["json"]) true line = [trimS line]) ∧
    (strEndsWith (lowerStr (recordPath (trimS line))) ".json" = false →
      processLine dfltFlags (some ["json"]) true line = []) ∧
    compileExtRegex "" "js,png" = ⟨some ["js", "png"], false, false⟩ ∧
    compileExtRegex "json" "" = ⟨some ["json"], true, false⟩ := by
  refine ⟨?_, ?_, ?_, by decide, by decide⟩
  · intro h
    by_cases hl : trimS line = ""
    · simp [processLine, hl]
    · have hm : extMatch ["js", "png"] (recordPath (trimS line)) = true := by
        simp only [extMatch, List.any_cons, List.any_nil, Bool.or_false]
        rw [show ("." ++ lowerStr "js" : String) = ".js" from by decide, h]
        simp
      simp [processLine, hl, hm, dfltFlags]
  · intro h
    have hl : ¬ trimS line = "" := by
      intro hl0
      rw [hl0] at h
      exact absurd h (by decide)
    have hm : extMatch ["json"] (recordPath (trimS line)) = true := by
      simp only [extMatch, List.any_cons, List.any_nil, Bool.or_false]
      rw [show ("." ++ lowerStr "json" : String) = ".json" from by decide, h]
    simp [processLine, hl, hm, dfltFlags]
  · intro h
    by_cases hl : trimS line = ""
    · simp [processLine, hl]
    · have hm : extMatch ["json"] (recordPath (trimS line)) = false := by
        simp only [extMatch, List.any_cons, List.any_nil, Bool.or_false]
        rw [show ("." ++ lowerStr "json" : String) = ".json" from by decide, h]
      simp [processLine, hl, hm, dfltFlags]

theorem ext_filter_spec_witness :
    processLine dfltFlags (some ["js", "png"]) false "https://h/a.JS" = [] ∧
    processLine dfltFlags (some ["json"]) true "https://h/a.json" = ["https://h/a.json"] ∧
    processLine dfltFlags (some ["json"]) true "https://h/a.txt" = [] :=
  ⟨(ext_filter_spec "https://h/a.JS").1 (by decide),
   ((ext_filter_spec "https://h/a.json").2.1 (by decide)).trans (by decide),
   (ext_filter_spec "https://h/a.txt").2.2.1 (by decide)⟩
